import Mathlib

/-!
# Job execution engine of `src/backend/server.js`

A shallow embedding of the backend's job engine:

* `runCommand` (lines 54-93): the handlers installed on one child process, as a
  state machine driven by the events the child delivers;
* `executeJob` (lines 95-183): the pipeline for one job, split at its `await`
  points into `executeJobStart` and `executeJobResume`;
* `enqueueJob`, `processJobs` and the `POST /api/submit` handler (lines 25-51,
  191-204): the queue and the single-worker loop, as a step function over the
  events of the Node event loop.

Everything the code obtains from outside (what `fs.mkdtempSync` returns or
throws, how a child process behaves, which uuid is drawn) is an explicit input.
Texts are Lean strings; an exception or a rejection is represented by its
`message`.
-/

namespace ECode

/-! ## Data model -/

/-- The four values the `status` field of a job record takes. -/
inductive Status where
  | PENDING
  | RUNNING
  | COMPLETED
  | ERROR
deriving DecidableEq, Repr

/-- A value of `jobStore`: `{ status, output, error }`. The `output` field is
absent only in the object `processJobs` builds by spreading `{}`. -/
structure JobRecord where
  status : Status
  output : Option String
  error : String
deriving DecidableEq, Repr

/-- The object built by `POST /api/submit`: `{ id, language, code, stdin }`. -/
structure Job where
  id : String
  language : String
  code : String
  stdin : String
deriving DecidableEq, Repr

/-- The value `runCommand` resolves with: `{ code, stdout, stderr }`. The exit
code is `none` (JavaScript `null`) when the child was ended by a signal. -/
structure ProcResult where
  code : Option Int
  stdout : String
  stderr : String
deriving DecidableEq, Repr

/-- How a promise returned by `runCommand` settles: `resolve(r)`, or
`reject(err)` with `err.message = msg`. -/
inductive Settled where
  | resolved (r : ProcResult)
  | rejected (msg : String)
deriving DecidableEq, Repr

/-- JavaScript `a || b` on texts: the empty text is falsy. -/
def strOr (a b : String) : String :=
  if a = "" then b else a

/-! ## `jobStore`: a `Map` from job id to record -/

/-- The map `jobStore`, as its entries in insertion order. -/
abbrev JobStore := List (String × JobRecord)

/-- The call `jobStore.get(id)`. -/
def storeGet : JobStore → String → Option JobRecord
  | [], _ => none
  | (k, v) :: rest, id => if k = id then some v else storeGet rest id

/-- The call `jobStore.set(id, r)`: it replaces the value of an existing key in
place, and appends a new key otherwise. -/
def storeSet : JobStore → String → JobRecord → JobStore
  | [], id, r => [(id, r)]
  | (k, v) :: rest, id, r =>
    if k = id then (k, r) :: rest else (k, v) :: storeSet rest id r

/-- The call `jobStore.has(id)`. -/
def storeHas (s : JobStore) (id : String) : Bool :=
  (storeGet s id).isSome

/-- The number of records whose status is `RUNNING`. -/
def runningCount (s : JobStore) : Nat :=
  (s.filter (fun p => decide (p.2.status = Status.RUNNING))).length

/-! ## `runCommand` -/

/-- The characters `String.prototype.trim` strips: ECMAScript WhiteSpace and
LineTerminator code points. -/
def isJsWhitespace (c : Char) : Bool :=
  let n := c.toNat
  n = 9 || n = 10 || n = 11 || n = 12 || n = 13 || n = 32 || n = 160 ||
  n = 5760 || (8192 ≤ n && n ≤ 8202) || n = 8232 || n = 8233 || n = 8239 ||
  n = 8287 || n = 12288 || n = 65279

/-- The text `s.trim()`. -/
def jsTrim (s : String) : String :=
  ⟨((s.data.dropWhile isJsWhitespace).reverse.dropWhile isJsWhitespace).reverse⟩

/-- The guard of line 63: `stdin && stdin.trim().length > 0`. -/
def stdinGuard (stdin : String) : Bool :=
  decide (stdin ≠ "") && decide (0 < (jsTrim stdin).data.length)

/-- A call on `child.stdin`. -/
inductive StdinOp where
  | write (s : String)
  | close
deriving DecidableEq, Repr

/-- The line the timer callback appends to `stderr` (line 77). -/
def timeLimitLine : String := "\n[Error] Time limit exceeded."

/-- The marker as the specification quotes it. -/
def timeLimitMarker : String := "[Error] Time limit exceeded."

/-- What a child process can deliver to the handlers `runCommand` installs:
a chunk on `stdout` or `stderr`, the expiry of the `setTimeout` timer, the
`close` event with the exit code, the `error` event. -/
inductive ChildEvent where
  | stdoutData (d : String)
  | stderrData (d : String)
  | timer
  | close (code : Option Int)
  | error (msg : String)
deriving DecidableEq, Repr

/-- The variables of one `runCommand` call: the two accumulators, the calls
made on `child.stdin`, whether the timer is still pending, the number of
`child.kill` calls, and the state of the returned promise. -/
structure RunState where
  stdout : String
  stderr : String
  stdinOps : List StdinOp
  timerPending : Bool
  kills : Nat
  settled : Option Settled
deriving DecidableEq, Repr

/-- The synchronous body of the promise executor (lines 58-81): the
accumulators start empty, `stdin` is written when the guard holds, the input
stream is ended, the timer is armed. -/
def runCommandInit (stdin : String) : RunState :=
  { stdout := ""
    stderr := ""
    stdinOps := (if stdinGuard stdin then [StdinOp.write stdin] else []) ++ [StdinOp.close]
    timerPending := true
    kills := 0
    settled := none }

/-- A promise settles once: `resolve` and `reject` on a settled promise do
nothing. -/
def settleWith (s : RunState) (v : Settled) : RunState :=
  match s.settled with
  | none => { s with settled := some v }
  | some _ => s

/-- One handler invocation (lines 68-91). The timer callback runs only while
the timer is pending, and at most once. -/
def runCommandStep (s : RunState) : ChildEvent → RunState
  | .stdoutData d => { s with stdout := s.stdout ++ d }
  | .stderrData d => { s with stderr := s.stderr ++ d }
  | .timer =>
    if s.timerPending then
      { s with stderr := s.stderr ++ timeLimitLine, kills := s.kills + 1, timerPending := false }
    else s
  | .close code =>
    settleWith { s with timerPending := false } (.resolved ⟨code, s.stdout, s.stderr⟩)
  | .error msg =>
    settleWith { s with timerPending := false } (.rejected msg)

/-- The state of a `runCommand(_, _, { stdin })` call after the child has
delivered the events `evs` in order. -/
def runCommand (stdin : String) (evs : List ChildEvent) : RunState :=
  evs.foldl runCommandStep (runCommandInit stdin)

/-- The events whose handlers settle the promise: `close` and `error`. -/
def ChildEvent.isFinal : ChildEvent → Bool
  | .close _ => true
  | .error _ => true
  | _ => false

/-- The text contains no character other than those `trim` strips (the empty
text included). -/
def allWhitespace (s : String) : Bool :=
  s.data.all isJsWhitespace

/-! ## `executeJob` -/

/-- The result of a synchronous filesystem call: it returns, or it throws an
exception with the given message. -/
inductive Outcome (α : Type) where
  | ok (a : α)
  | throws (msg : String)
deriving DecidableEq, Repr

/-- The variables the `switch` of lines 110-137 assigns for a supported
language; `compileCmd` stays `null` (here `none`) for Python. -/
structure Profile where
  fileName : String
  compileCmd : Option String
  compileArgs : List String
  runCmd : String
  runArgs : List String
deriving DecidableEq, Repr

/-- The `switch (language)` of lines 110-137; `none` is the `default` branch.
`win32` is `process.platform === 'win32'`. -/
def languageProfile (win32 : Bool) (language : String) : Option Profile :=
  if language = "cpp" then
    some { fileName := "main.cpp"
           compileCmd := some "g++"
           compileArgs := ["main.cpp", "-O2", "-std=c++17", "-o", "main"]
           runCmd := if win32 then "main.exe" else "./main"
           runArgs := [] }
  else if language = "python" then
    some { fileName := "main.py"
           compileCmd := none
           compileArgs := []
           runCmd := "python"
           runArgs := ["main.py"] }
  else if language = "java" then
    some { fileName := "Main.java"
           compileCmd := some "javac"
           compileArgs := ["Main.java"]
           runCmd := "java"
           runArgs := ["Main"] }
  else none

/-- One invocation of `runCommand(command, args, { cwd, stdin, timeoutMs })`. -/
structure SpawnCall where
  command : String
  args : List String
  cwd : String
  stdin : String
  timeoutMs : Nat
deriving DecidableEq, Repr

/-- What `executeJob` reads and changes: the job store, the workspace
directories that exist under `os.tmpdir()`, the source files written
(directory, file name, content), and three logs kept for the statements below:
the `runCommand` invocations, the `fs.rmSync` invocations, and the
`jobStore.set` calls as (id, status) pairs, each oldest first. -/
structure World where
  jobStore : JobStore
  dirs : List String
  files : List (String × String × String)
  spawned : List SpawnCall
  removals : List String
  writes : List (String × Status)
deriving DecidableEq, Repr

/-- Every `jobStore.set(id, r)` of the program goes through here, so that the
log `writes` records it. -/
def World.setRecord (w : World) (id : String) (r : JobRecord) : World :=
  { w with jobStore := storeSet w.jobStore id r, writes := w.writes ++ [(id, r.status)] }

/-- Calling `runCommand`: the child is spawned at once, the returned promise
settles later. -/
def World.spawn (w : World) (c : SpawnCall) : World :=
  { w with spawned := w.spawned ++ [c] }

/-- The `finally` block of lines 175-182: `fs.rmSync(workDir, ...)` inside its
own `try`/`catch`, whose handler only prints a warning. When the removal
succeeds the directory is gone; when it throws the directory is still there. -/
def releaseWorkspace (rm : Outcome Unit) (workDir : String) (w : World) : World :=
  let w1 := { w with removals := w.removals ++ [workDir] }
  match rm with
  | .ok _ => { w1 with dirs := w1.dirs.filter (fun d => decide (d ≠ workDir)) }
  | .throws _ => w1

/-- The `await` at which a suspended `executeJob` waits. -/
inductive Phase where
  | compiling
  | running
deriving DecidableEq, Repr

/-- An `executeJob` call suspended at an `await`, with the local variables it
still needs. -/
structure Suspended where
  job : Job
  workDir : String
  profile : Profile
  phase : Phase
deriving DecidableEq, Repr

/-- How the promise returned by `executeJob` settles. -/
inductive Completion where
  | fulfilled
  | rejected (msg : String)
deriving DecidableEq, Repr

/-- Where an `executeJob` call stands after running up to its next `await` or
to its end. -/
inductive Progress where
  | suspended (s : Suspended)
  | finished (c : Completion)
deriving DecidableEq, Repr

/-- The `runCommand` call of lines 158-162. -/
def runCall (p : Profile) (workDir : String) (job : Job) : SpawnCall :=
  { command := p.runCmd, args := p.runArgs, cwd := workDir
    stdin := strOr job.stdin "", timeoutMs := 8000 }

/-- The `runCommand` call of lines 144-147 (`stdin` takes its default `''`). -/
def compileCall (cmd : String) (p : Profile) (workDir : String) : SpawnCall :=
  { command := cmd, args := p.compileArgs, cwd := workDir, stdin := "", timeoutMs := 8000 }

/-- Lines 96-147 or 96-162 of `executeJob`: everything up to the first `await`.
`mk` is what `fs.mkdtempSync` does and `wr` what `fs.writeFileSync` does. An
exception thrown here, outside the `try`, rejects the promise. -/
def executeJobStart (win32 : Bool) (mk : Outcome String) (wr : Outcome Unit)
    (job : Job) (w : World) : World × Progress :=
  let w1 := w.setRecord job.id { status := .RUNNING, output := some "", error := "" }
  match mk with
  | .throws msg => (w1, .finished (.rejected msg))
  | .ok workDir =>
    let w2 := { w1 with dirs := w1.dirs ++ [workDir] }
    match languageProfile win32 job.language with
    | none =>
      (w2.setRecord job.id { status := .ERROR, output := some "", error := "Unsupported language" },
        .finished .fulfilled)
    | some p =>
      match wr with
      | .throws msg => (w2, .finished (.rejected msg))
      | .ok _ =>
        let w3 := { w2 with files := w2.files ++ [(workDir, p.fileName, job.code)] }
        match p.compileCmd with
        | some cmd =>
          (w3.spawn (compileCall cmd p workDir), .suspended ⟨job, workDir, p, .compiling⟩)
        | none =>
          (w3.spawn (runCall p workDir job), .suspended ⟨job, workDir, p, .running⟩)

/-- The `catch` block of lines 169-174. -/
def recordFailure (id : String) (msg : String) (w : World) : World :=
  w.setRecord id { status := .ERROR, output := some "", error := strOr msg "Execution error" }

/-- Lines 163-182: the awaited run promise has settled with `r`; the outcome is
recorded and the `finally` block runs. -/
def finishRun (rm : Outcome Unit) (s : Suspended) (r : Settled) (w : World) : World :=
  match r with
  | .resolved res =>
    releaseWorkspace rm s.workDir
      (w.setRecord s.job.id { status := .COMPLETED, output := some res.stdout, error := res.stderr })
  | .rejected msg => releaseWorkspace rm s.workDir (recordFailure s.job.id msg w)

/-- Lines 148-162: the awaited compile promise has settled with `r`. A result
whose code is not `0` ends the pipeline; otherwise the run command is
invoked and the call suspends again. -/
def afterCompile (rm : Outcome Unit) (s : Suspended) (r : Settled) (w : World) :
    World × Progress :=
  match r with
  | .resolved res =>
    if res.code ≠ some 0 then
      (releaseWorkspace rm s.workDir
        (w.setRecord s.job.id
          { status := .COMPLETED, output := some res.stdout
            error := strOr res.stderr "Compilation failed" }),
        .finished .fulfilled)
    else
      (w.spawn (runCall s.profile s.workDir s.job), .suspended { s with phase := .running })
  | .rejected msg =>
    (releaseWorkspace rm s.workDir (recordFailure s.job.id msg w), .finished .fulfilled)

/-- Resuming a suspended `executeJob` when the promise it awaits settles with
`r`; `rm` is what `fs.rmSync` does if the `finally` block is reached. -/
def executeJobResume (rm : Outcome Unit) (s : Suspended) (r : Settled) (w : World) :
    World × Progress :=
  match s.phase with
  | .compiling => afterCompile rm s r w
  | .running => (finishRun rm s r w, .finished .fulfilled)

/-- The behaviour of everything `executeJob` calls, for a run in which each
awaited `runCommand` promise settles: `compile` and `run` are what the two
promises settle with. -/
structure Env where
  win32 : Bool
  mkdtemp : Outcome String
  writeFile : Outcome Unit
  compile : Settled
  run : Settled
  rm : Outcome Unit
deriving DecidableEq, Repr

/-- One whole `executeJob(job)` call, from its first line to the settlement of
its promise. -/
def executeJob (env : Env) (job : Job) (w : World) : World × Completion :=
  match executeJobStart env.win32 env.mkdtemp env.writeFile job w with
  | (w1, .finished c) => (w1, c)
  | (w1, .suspended s) =>
    match s.phase with
    | .running => (finishRun env.rm s env.run w1, .fulfilled)
    | .compiling =>
      match afterCompile env.rm s env.compile w1 with
      | (w2, .finished c) => (w2, c)
      | (w2, .suspended s2) => (finishRun env.rm s2 env.run w2, .fulfilled)

/-! ## The queue and the worker loop -/

/-- The module state of `server.js` (`jobStore` inside `world`, `jobQueue`,
`workerRunning`), the `executeJob` calls that are suspended, and the number of
`setImmediate(processJobs)` callbacks not yet run. `submitted` and `started`
are history kept for the statements below: the jobs passed to `enqueueJob` and
the jobs passed to `executeJob`, each oldest first. -/
structure Engine where
  world : World
  jobQueue : List Job
  workerRunning : Bool
  inflight : List Suspended
  immediates : Nat
  submitted : List Job
  started : List Job
deriving DecidableEq, Repr

/-- The state when the module has been loaded: lines 16-19. -/
def Engine.init : Engine :=
  { world := { jobStore := [], dirs := [], files := [], spawned := [], removals := [], writes := [] }
    jobQueue := []
    workerRunning := false
    inflight := []
    immediates := 0
    submitted := []
    started := [] }

/-- The reactions attached in lines 38-50, run when the promise of
`executeJob(job)` settles: `.catch` records `ERROR` over the existing record
(or over `{}` when there is none, which leaves `output` absent), `.finally`
clears `workerRunning` and schedules `processJobs`. Promise reactions are
microtasks: they run before the event loop handles any other event, so they are
executed together with the step that settles the promise. -/
def onSettled (job : Job) (c : Completion) (e : Engine) : Engine :=
  let w :=
    match c with
    | .fulfilled => e.world
    | .rejected msg =>
      let existing := storeGet e.world.jobStore job.id
      e.world.setRecord job.id
        { status := .ERROR
          output := match existing with
            | some r => r.output
            | none => none
          error := strOr msg "Unknown error" }
  { e with world := w, workerRunning := false, immediates := e.immediates + 1 }

/-- The filesystem behaviour an `executeJob` call meets before its first
`await`. -/
structure FsStart where
  mkdtemp : Outcome String
  writeFile : Outcome Unit
deriving DecidableEq, Repr

/-- The function `processJobs` of lines 30-51. -/
def processJobs (win32 : Bool) (fs : FsStart) (e : Engine) : Engine :=
  if e.workerRunning then e
  else
    match e.jobQueue with
    | [] => e
    | job :: rest =>
      let e1 := { e with jobQueue := rest, workerRunning := true, started := e.started ++ [job] }
      match executeJobStart win32 fs.mkdtemp fs.writeFile job e1.world with
      | (w, .suspended s) => { e1 with world := w, inflight := e1.inflight ++ [s] }
      | (w, .finished c) => onSettled job c { e1 with world := w }

/-- The function `enqueueJob` of lines 25-28. -/
def enqueueJob (win32 : Bool) (fs : FsStart) (job : Job) (e : Engine) : Engine :=
  processJobs win32 fs { e with jobQueue := e.jobQueue ++ [job], submitted := e.submitted ++ [job] }

/-- The handler of `POST /api/submit` (lines 191-204), with `id` the value
`uuidv4()` returns. An absent field is the empty text; a request without
language or code is answered with status 400 and changes nothing. -/
def submit (win32 : Bool) (fs : FsStart) (id language code stdin : String) (e : Engine) :
    Engine :=
  if language = "" ∨ code = "" then e
  else
    let job : Job := { id := id, language := language, code := code, stdin := strOr stdin "" }
    enqueueJob win32 fs job
      { e with world := e.world.setRecord id { status := .PENDING, output := some "", error := "" } }

/-- What the event loop can run next: a submit request; the settlement of the
`runCommand` promise awaited by the suspended `executeJob` call number `k`
(with what `fs.rmSync` does if the call reaches its `finally` block); a
scheduled `setImmediate(processJobs)` callback. -/
inductive Event where
  | submit (id language code stdin : String) (fs : FsStart)
  | settle (k : Nat) (r : Settled) (rm : Outcome Unit)
  | immediate (fs : FsStart)
deriving DecidableEq, Repr

/-- One turn of the event loop. -/
def step (win32 : Bool) (e : Engine) : Event → Engine
  | .submit id language code stdin fs => submit win32 fs id language code stdin e
  | .settle k r rm =>
    match e.inflight[k]? with
    | none => e
    | some s =>
      match executeJobResume rm s r e.world with
      | (w, .suspended s2) => { e with world := w, inflight := e.inflight.set k s2 }
      | (w, .finished c) =>
        onSettled s.job c { e with world := w, inflight := e.inflight.eraseIdx k }
  | .immediate fs =>
    if e.immediates = 0 then e
    else processJobs win32 fs { e with immediates := e.immediates - 1 }

/-- The engine state after the events `evs`, from the initial state. -/
def run (win32 : Bool) (evs : List Event) : Engine :=
  evs.foldl (step win32) Engine.init

/-! ## Observations used by the statements on the engine -/

/-- The statuses a log of `jobStore.set` calls holds for `id`, oldest first. -/
def written (ws : List (String × Status)) (id : String) : List Status :=
  (ws.filter (fun p => decide (p.1 = id))).map Prod.snd

/-- The statuses written to the record of `id`, in the order of the
`jobStore.set` calls. -/
def statusesWritten (w : World) (id : String) : List Status :=
  written w.writes id

/-- The record `executeJob` writes first (line 98). -/
def runningRecord : JobRecord :=
  { status := .RUNNING, output := some "", error := "" }

/-- The part of the engine state the queue discipline is about. -/
structure View where
  store : JobStore
  writes : List (String × Status)
  queue : List Job
  busy : Bool
  inflight : List Suspended
  submitted : List Job
  started : List Job

/-- The view of an engine state. -/
def Engine.view (e : Engine) : View :=
  { store := e.world.jobStore
    writes := e.world.writes
    queue := e.jobQueue
    busy := e.workerRunning
    inflight := e.inflight
    submitted := e.submitted
    started := e.started }

/-- The ids of the jobs whose `executeJob` call is suspended. -/
def inflightIds (v : View) : List String :=
  v.inflight.map (fun f => f.job.id)

/-- A status that ends a job. -/
def Status.isTerminal : Status → Bool
  | .COMPLETED => true
  | .ERROR => true
  | _ => false

/-- The moves of the worker loop on views. Every step of the engine is a
sequence of these (theorem `step_moves`): a job is submitted; the worker takes
the head of the queue and its `executeJob` call suspends, or ends before its
first `await`; a suspended call moves to its next `await`, or ends. -/
inductive Move (v : View) : View → Prop where
  | submit (job : Job) :
    Move v { v with
      store := storeSet v.store job.id { status := .PENDING, output := some "", error := "" }
      writes := v.writes ++ [(job.id, .PENDING)]
      queue := v.queue ++ [job]
      submitted := v.submitted ++ [job] }
  | startSuspend (job : Job) (rest : List Job) (f : Suspended) :
    v.busy = false → v.queue = job :: rest → f.job = job →
    Move v { v with
      store := storeSet v.store job.id runningRecord
      writes := v.writes ++ [(job.id, .RUNNING)]
      queue := rest
      busy := true
      inflight := v.inflight ++ [f]
      started := v.started ++ [job] }
  | startFinish (job : Job) (rest : List Job) (t : JobRecord) :
    v.busy = false → v.queue = job :: rest → t.status.isTerminal = true →
    Move v { v with
      store := storeSet (storeSet v.store job.id runningRecord) job.id t
      writes := v.writes ++ [(job.id, .RUNNING), (job.id, t.status)]
      queue := rest
      busy := false
      started := v.started ++ [job] }
  | resume (k : Nat) (f f2 : Suspended) :
    v.inflight[k]? = some f → f2.job = f.job →
    Move v { v with inflight := v.inflight.set k f2 }
  | finish (k : Nat) (f : Suspended) (t : JobRecord) :
    v.inflight[k]? = some f → t.status.isTerminal = true →
    Move v { v with
      store := storeSet v.store f.job.id t
      writes := v.writes ++ [(f.job.id, t.status)]
      inflight := v.inflight.eraseIdx k
      busy := false }

/-- The invariant of the worker loop: the job store has one entry per key; at
most one `executeJob` call is suspended, and only while `workerRunning` is
set; every record with status `RUNNING` belongs to a suspended call; the jobs
submitted are the jobs started followed by the queue; a suspended call is one
of the jobs started. -/
structure LoopInv (v : View) : Prop where
  keys : (v.store.map Prod.fst).Nodup
  atMostOne : v.inflight.length ≤ 1
  busy : v.inflight ≠ [] → v.busy = true
  running : ∀ k r, (k, r) ∈ v.store → r.status = .RUNNING → k ∈ inflightIds v
  fifo : v.submitted = v.started ++ v.queue
  begun : ∀ f ∈ v.inflight, f.job ∈ v.started

/-- The record of every id carries the status written last. -/
def Coherent (v : View) : Prop :=
  ∀ id, (storeGet v.store id).map (fun r => r.status)
      = (written v.writes id).getLast?

/-- The invariant of the status log, meaningful when the ids of the submitted
jobs are distinct: nothing is written for an id not submitted; a queued job
has `PENDING` only; a suspended job has `PENDING, RUNNING`; a job started and
no longer suspended has these two followed by one terminal status. -/
structure LogInv (v : View) : Prop where
  fresh : ∀ id, id ∉ v.submitted.map Job.id →
    written v.writes id = []
  queued : ∀ id, id ∈ v.queue.map Job.id →
    written v.writes id = [.PENDING]
  suspended : ∀ id, id ∈ inflightIds v →
    written v.writes id = [.PENDING, .RUNNING]
  done : ∀ id, id ∈ v.started.map Job.id → id ∉ inflightIds v →
    written v.writes id = [.PENDING, .RUNNING, .COMPLETED]
      ∨ written v.writes id = [.PENDING, .RUNNING, .ERROR]

/-! ## Sample inputs -/

/-- A world with no records, no directories and empty logs. -/
def World.empty : World :=
  { jobStore := [], dirs := [], files := [], spawned := [], removals := [], writes := [] }

/-- A Python job reading no input. -/
def pythonJob : Job :=
  { id := "job-py", language := "python", code := "print(1+1)", stdin := "" }

/-- A C++ job whose source does not compile. -/
def cppJob : Job :=
  { id := "job-cpp", language := "cpp", code := "int main(", stdin := "" }

/-- A job in a language outside the `switch`. -/
def rubyJob : Job :=
  { id := "job-rb", language := "ruby", code := "puts 1", stdin := "" }

/-- An environment in which every call succeeds; the run is ended by the
timer (no exit code) after printing `2`. -/
def sampleEnv : Env :=
  { win32 := false
    mkdtemp := .ok "/tmp/iicpc-job-a1B2c3"
    writeFile := .ok ()
    compile := .resolved ⟨some 1, "", "main.cpp:1:10: error: expected identifier"⟩
    run := .resolved ⟨none, "2\n", "\n[Error] Time limit exceeded."⟩
    rm := .ok () }

/-- An environment whose scratch directory cannot be written. -/
def fullDiskEnv : Env :=
  { sampleEnv with mkdtemp := .throws "ENOSPC: no space left on device, mkdtemp" }

/-- Two submissions while the worker is idle: a Python job, then a job in an
unsupported language. -/
def sampleEvents : List Event :=
  [ .submit "job-1" "python" "print(1+1)" "" ⟨.ok "/tmp/iicpc-job-a1B2c3", .ok ()⟩,
    .submit "job-2" "ruby" "puts 1" "" ⟨.ok "/tmp/iicpc-job-d4E5f6", .ok ()⟩ ]

/-- The run of the first job resolves, then the scheduled `processJobs`
callback starts the second job. -/
def sampleMore : List Event :=
  [ .settle 0 (.resolved ⟨some 0, "2\n", ""⟩) (.ok ()),
    .immediate ⟨.ok "/tmp/iicpc-job-d4E5f6", .ok ()⟩ ]

/-! ## Lemmas on the job store -/

theorem storeGet_storeSet_self (s : JobStore) (id : String) (r : JobRecord) :
    storeGet (storeSet s id r) id = some r := by
  induction s with
  | nil => simp [storeSet, storeGet]
  | cons p rest ih =>
    obtain ⟨k, v⟩ := p
    by_cases h : k = id
    · simp [storeSet, storeGet, h]
    · simp [storeSet, storeGet, h, ih]

theorem storeGet_storeSet_of_ne (s : JobStore) (id other : String) (r : JobRecord)
    (h : other ≠ id) : storeGet (storeSet s id r) other = storeGet s other := by
  induction s with
  | nil =>
    have h2 : ¬ id = other := fun x => h x.symm
    simp [storeSet, storeGet, h2]
  | cons p rest ih =>
    obtain ⟨k, v⟩ := p
    by_cases hk : k = id
    · subst hk
      have h2 : ¬ k = other := fun x => h x.symm
      simp [storeSet, storeGet, h2]
    · by_cases ho : k = other
      · subst ho
        simp [storeSet, storeGet, hk]
      · simp [storeSet, storeGet, hk, ho, ih]

@[simp] theorem releaseWorkspace_jobStore (rm : Outcome Unit) (d : String) (w : World) :
    (releaseWorkspace rm d w).jobStore = w.jobStore := by
  cases rm <;> rfl

@[simp] theorem releaseWorkspace_writes (rm : Outcome Unit) (d : String) (w : World) :
    (releaseWorkspace rm d w).writes = w.writes := by
  cases rm <;> rfl

@[simp] theorem releaseWorkspace_spawned (rm : Outcome Unit) (d : String) (w : World) :
    (releaseWorkspace rm d w).spawned = w.spawned := by
  cases rm <;> rfl

@[simp] theorem releaseWorkspace_removals (rm : Outcome Unit) (d : String) (w : World) :
    (releaseWorkspace rm d w).removals = w.removals ++ [d] := by
  cases rm <;> rfl

theorem executeJob_run_resolved (env : Env) (job : Job) (w : World) (p : Profile)
    (d : String) (res : ProcResult)
    (hp : languageProfile env.win32 job.language = some p)
    (hmk : env.mkdtemp = .ok d) (hwr : env.writeFile = .ok ())
    (hc : p.compileCmd = none ∨ ∃ o e, env.compile = .resolved ⟨some 0, o, e⟩)
    (hr : env.run = .resolved res) :
    storeGet (executeJob env job w).1.jobStore job.id
        = some { status := .COMPLETED, output := some res.stdout, error := res.stderr }
      ∧ (executeJob env job w).2 = .fulfilled := by
  rcases hcc : p.compileCmd with _ | cmd
  · simp [executeJob, executeJobStart, hp, hmk, hwr, hcc, hr, finishRun, World.setRecord,
      World.spawn, storeGet_storeSet_self]
  · rcases hc with hc | ⟨o, e, hc⟩
    · simp [hcc] at hc
    · simp [executeJob, executeJobStart, hp, hmk, hwr, hcc, hr, hc, afterCompile, finishRun,
        World.setRecord, World.spawn, storeGet_storeSet_self]

theorem filter_ne_append_self (l : List String) (d : String) (hl : d ∉ l) :
    (l ++ [d]).filter (fun x => decide (x ≠ d)) = l := by
  rw [List.filter_append]
  have h1 : l.filter (fun x => decide (x ≠ d)) = l := by
    apply List.filter_eq_self.mpr
    intro a ha
    have hne : a ≠ d := fun h => hl (h ▸ ha)
    simp [hne]
  rw [h1]
  simp

/-- Once the source file is written, every path of `executeJob` ends in the
`finally` block: the whole call is the removal step applied to a world `wb`
that does not depend on what `fs.rmSync` does. -/
theorem executeJob_release_form (env : Env) (job : Job) (w : World) (p : Profile)
    (d : String)
    (hp : languageProfile env.win32 job.language = some p)
    (hmk : env.mkdtemp = .ok d) (hwr : env.writeFile = .ok ()) :
    ∃ wb : World, wb.removals = w.removals ∧ wb.dirs = w.dirs ++ [d] ∧
      ∀ rm : Outcome Unit,
        executeJob { env with rm := rm } job w = (releaseWorkspace rm d wb, .fulfilled) := by
  rcases hcc : p.compileCmd with _ | cmd
  · rcases hr : env.run with res | msg
    · apply Exists.intro
      refine ⟨?h1, ?h2, ?h3⟩
      case h3 =>
        intro rm
        simp [executeJob, executeJobStart, hp, hmk, hwr, hcc, hr, finishRun]
        rfl
      case h1 => rfl
      case h2 => rfl
    · apply Exists.intro
      refine ⟨?h1, ?h2, ?h3⟩
      case h3 =>
        intro rm
        simp [executeJob, executeJobStart, hp, hmk, hwr, hcc, hr, finishRun]
        rfl
      case h1 => rfl
      case h2 => rfl
  · rcases hcp : env.compile with cres | cmsg
    · by_cases hcode : cres.code = some 0
      · rcases hr : env.run with res | msg
        · apply Exists.intro
          refine ⟨?h1, ?h2, ?h3⟩
          case h3 =>
            intro rm
            simp [executeJob, executeJobStart, hp, hmk, hwr, hcc, hr, hcp, hcode, afterCompile,
              finishRun]
            rfl
          case h1 => rfl
          case h2 => rfl
        · apply Exists.intro
          refine ⟨?h1, ?h2, ?h3⟩
          case h3 =>
            intro rm
            simp [executeJob, executeJobStart, hp, hmk, hwr, hcc, hr, hcp, hcode, afterCompile,
              finishRun]
            rfl
          case h1 => rfl
          case h2 => rfl
      · apply Exists.intro
        refine ⟨?h1, ?h2, ?h3⟩
        case h3 =>
          intro rm
          simp [executeJob, executeJobStart, hp, hmk, hwr, hcc, hcp, hcode, afterCompile]
          rfl
        case h1 => rfl
        case h2 => rfl
    · apply Exists.intro
      refine ⟨?h1, ?h2, ?h3⟩
      case h3 =>
        intro rm
        simp [executeJob, executeJobStart, hp, hmk, hwr, hcc, hcp, afterCompile]
        rfl
      case h1 => rfl
      case h2 => rfl

/-! ## Lemmas on `runCommand` -/

theorem all_dropWhile_iff (p : Char → Bool) (l : List Char) :
    (∀ x ∈ l.dropWhile p, p x = true) ↔ ∀ x ∈ l, p x = true := by
  induction l with
  | nil => simp
  | cons a t ih =>
    by_cases ha : p a = true
    · simp [List.dropWhile_cons, ha, ih]
    · simp [List.dropWhile_cons, ha]

theorem jsTrim_data_eq_nil_iff (s : String) :
    (jsTrim s).data = [] ↔ ∀ x ∈ s.data, isJsWhitespace x = true := by
  show ((s.data.dropWhile isJsWhitespace).reverse.dropWhile isJsWhitespace).reverse = [] ↔ _
  rw [List.reverse_eq_nil_iff, List.dropWhile_eq_nil_iff]
  constructor
  · intro h
    exact (all_dropWhile_iff _ _).mp (fun x hx => h x (List.mem_reverse.mpr hx))
  · intro h x hx
    exact (all_dropWhile_iff _ _).mpr h x (List.mem_reverse.mp hx)

theorem stdinGuard_eq (s : String) : stdinGuard s = !allWhitespace s := by
  have hiff := jsTrim_data_eq_nil_iff s
  by_cases hall : ∀ x ∈ s.data, isJsWhitespace x = true
  · have h0 : (jsTrim s).data = [] := hiff.mpr hall
    have h1 : allWhitespace s = true := by
      simpa [allWhitespace, List.all_eq_true] using hall
    simp [stdinGuard, h0, h1]
  · have h0 : (jsTrim s).data ≠ [] := fun h => hall (hiff.mp h)
    have h1 : allWhitespace s = false := by
      rw [← Bool.not_eq_true]
      intro h
      exact hall (by simpa [allWhitespace, List.all_eq_true] using h)
    have h2 : s ≠ "" := by
      intro h
      subst h
      exact hall (by simp)
    have h3 : 0 < (jsTrim s).data.length := List.length_pos.mpr h0
    have h4 : decide (0 < (jsTrim s).data.length) = true := decide_eq_true h3
    have h5 : decide (s ≠ "") = true := decide_eq_true h2
    unfold stdinGuard
    rw [h4, h5, h1]
    rfl

theorem runCommandStep_stdinOps (s : RunState) (ev : ChildEvent) :
    (runCommandStep s ev).stdinOps = s.stdinOps := by
  cases ev <;> simp [runCommandStep, settleWith]
  · split <;> rfl
  · split <;> rfl
  · split <;> rfl

theorem foldl_runCommandStep_stdinOps (evs : List ChildEvent) (s : RunState) :
    (evs.foldl runCommandStep s).stdinOps = s.stdinOps := by
  induction evs generalizing s with
  | nil => rfl
  | cons ev rest ih => rw [List.foldl_cons, ih, runCommandStep_stdinOps]

theorem runCommand_append (stdin : String) (a b : List ChildEvent) :
    runCommand stdin (a ++ b) = b.foldl runCommandStep (runCommand stdin a) := by
  simp [runCommand, List.foldl_append]

theorem runCommandStep_settled_of_not_final (s : RunState) (ev : ChildEvent)
    (h : ev.isFinal = false) : (runCommandStep s ev).settled = s.settled := by
  cases ev with
  | stdoutData d => rfl
  | stderrData d => rfl
  | timer =>
    simp only [runCommandStep]
    split <;> rfl
  | close c => simp [ChildEvent.isFinal] at h
  | error m => simp [ChildEvent.isFinal] at h

theorem foldl_settled_of_not_final (evs : List ChildEvent) (s : RunState)
    (h : ∀ ev ∈ evs, ev.isFinal = false) :
    (evs.foldl runCommandStep s).settled = s.settled := by
  induction evs generalizing s with
  | nil => rfl
  | cons ev rest ih =>
    rw [List.foldl_cons, ih _ (fun e he => h e (List.mem_cons_of_mem _ he)),
      runCommandStep_settled_of_not_final s ev (h ev (List.mem_cons_self _ _))]

theorem runCommandStep_settled_stays (s : RunState) (ev : ChildEvent) (v : Settled)
    (h : s.settled = some v) : (runCommandStep s ev).settled = some v := by
  cases ev with
  | stdoutData d => exact h
  | stderrData d => exact h
  | timer =>
    simp only [runCommandStep]
    split <;> exact h
  | close c => simp [runCommandStep, settleWith, h]
  | error m => simp [runCommandStep, settleWith, h]

theorem foldl_settled_stays (evs : List ChildEvent) (s : RunState) (v : Settled)
    (h : s.settled = some v) : (evs.foldl runCommandStep s).settled = some v := by
  induction evs generalizing s with
  | nil => exact h
  | cons ev rest ih =>
    rw [List.foldl_cons]
    exact ih _ (runCommandStep_settled_stays s ev v h)

/-- The accumulated `stderr` holds the time-limit marker. -/
theorem marker_infix_append (a b : String) (h : timeLimitMarker.data <:+: a.data) :
    timeLimitMarker.data <:+: (a ++ b).data := by
  obtain ⟨u, v, huv⟩ := h
  exact ⟨u, v ++ b.data, by rw [String.data_append, ← huv]; simp [List.append_assoc]⟩

theorem marker_infix_timeLimitLine (a : String) :
    timeLimitMarker.data <:+: (a ++ timeLimitLine).data := by
  refine ⟨a.data ++ [Char.ofNat 10], [], ?_⟩
  rw [String.data_append]
  have h : timeLimitLine.data = Char.ofNat 10 :: timeLimitMarker.data := by decide
  rw [h]
  simp

theorem runCommandStep_marker (s : RunState) (ev : ChildEvent)
    (h : timeLimitMarker.data <:+: s.stderr.data) :
    timeLimitMarker.data <:+: (runCommandStep s ev).stderr.data := by
  cases ev with
  | stdoutData d => exact h
  | stderrData d => exact marker_infix_append _ _ h
  | timer =>
    simp only [runCommandStep]
    split
    · exact marker_infix_append _ _ h
    · exact h
  | close c =>
    simp only [runCommandStep, settleWith]
    split <;> exact h
  | error m =>
    simp only [runCommandStep, settleWith]
    split <;> exact h

theorem foldl_marker (evs : List ChildEvent) (s : RunState)
    (h : timeLimitMarker.data <:+: s.stderr.data) :
    timeLimitMarker.data <:+: (evs.foldl runCommandStep s).stderr.data := by
  induction evs generalizing s with
  | nil => exact h
  | cons ev rest ih =>
    rw [List.foldl_cons]
    exact ih _ (runCommandStep_marker s ev h)

theorem foldl_pending_or_marker (evs : List ChildEvent) (s : RunState)
    (hev : ∀ ev ∈ evs, ev.isFinal = false)
    (h : s.timerPending = true ∨ timeLimitMarker.data <:+: s.stderr.data) :
    (evs.foldl runCommandStep s).timerPending = true
      ∨ timeLimitMarker.data <:+: (evs.foldl runCommandStep s).stderr.data := by
  induction evs generalizing s with
  | nil => exact h
  | cons ev rest ih =>
    rw [List.foldl_cons]
    apply ih _ (fun e he => hev e (List.mem_cons_of_mem _ he))
    have hfin := hev ev (List.mem_cons_self _ _)
    cases ev with
    | stdoutData d => exact h
    | stderrData d =>
      rcases h with h | h
      · exact Or.inl h
      · exact Or.inr (marker_infix_append _ _ h)
    | timer =>
      rcases h with h | h
      · right
        simp only [runCommandStep, h, if_true]
        exact marker_infix_timeLimitLine _
      · exact Or.inr (runCommandStep_marker s _ h)
    | close c => simp [ChildEvent.isFinal] at hfin
    | error m => simp [ChildEvent.isFinal] at hfin

theorem runCommandStep_timer_marker (s : RunState)
    (h : s.timerPending = true ∨ timeLimitMarker.data <:+: s.stderr.data) :
    timeLimitMarker.data <:+: (runCommandStep s .timer).stderr.data := by
  rcases h with h | h
  · simp only [runCommandStep, h, if_true]
    exact marker_infix_timeLimitLine _
  · exact runCommandStep_marker s _ h

/-! ## The engine steps as moves -/

theorem executeJobStart_summary (win32 : Bool) (mk : Outcome String) (wr : Outcome Unit)
    (job : Job) (w : World) :
    (∃ f, (executeJobStart win32 mk wr job w).2 = .suspended f ∧ f.job = job
        ∧ (executeJobStart win32 mk wr job w).1.jobStore = storeSet w.jobStore job.id runningRecord
        ∧ (executeJobStart win32 mk wr job w).1.writes = w.writes ++ [(job.id, .RUNNING)])
    ∨ (∃ msg, (executeJobStart win32 mk wr job w).2 = .finished (.rejected msg)
        ∧ (executeJobStart win32 mk wr job w).1.jobStore = storeSet w.jobStore job.id runningRecord
        ∧ (executeJobStart win32 mk wr job w).1.writes = w.writes ++ [(job.id, .RUNNING)])
    ∨ (∃ t, t.status = .ERROR
        ∧ (executeJobStart win32 mk wr job w).2 = .finished .fulfilled
        ∧ (executeJobStart win32 mk wr job w).1.jobStore
            = storeSet (storeSet w.jobStore job.id runningRecord) job.id t
        ∧ (executeJobStart win32 mk wr job w).1.writes
            = w.writes ++ [(job.id, .RUNNING), (job.id, t.status)]) := by
  rcases mk with d | msg
  · rcases hp : languageProfile win32 job.language with _ | p
    · right; right
      exact ⟨⟨.ERROR, some "", "Unsupported language"⟩, rfl, by simp [executeJobStart, hp], by
        simp [executeJobStart, hp, World.setRecord, runningRecord], by
        simp [executeJobStart, hp, World.setRecord]⟩
    · rcases wr with u | msg
      · left
        rcases hcc : p.compileCmd with _ | cmd
        · exact ⟨⟨job, d, p, .running⟩, by simp [executeJobStart, hp, hcc], rfl, by
            simp [executeJobStart, hp, hcc, World.setRecord, World.spawn, runningRecord], by
            simp [executeJobStart, hp, hcc, World.setRecord, World.spawn]⟩
        · exact ⟨⟨job, d, p, .compiling⟩, by simp [executeJobStart, hp, hcc], rfl, by
            simp [executeJobStart, hp, hcc, World.setRecord, World.spawn, runningRecord], by
            simp [executeJobStart, hp, hcc, World.setRecord, World.spawn]⟩
      · right; left
        exact ⟨msg, by simp [executeJobStart, hp], by
          simp [executeJobStart, hp, World.setRecord, runningRecord], by
          simp [executeJobStart, hp, World.setRecord]⟩
  · right; left
    exact ⟨msg, by simp [executeJobStart], by
      simp [executeJobStart, World.setRecord, runningRecord], by
      simp [executeJobStart, World.setRecord]⟩

theorem executeJobResume_summary (rm : Outcome Unit) (f : Suspended) (r : Settled)
    (w : World) :
    (∃ f2, (executeJobResume rm f r w).2 = .suspended f2 ∧ f2.job = f.job
        ∧ (executeJobResume rm f r w).1.jobStore = w.jobStore
        ∧ (executeJobResume rm f r w).1.writes = w.writes)
    ∨ (∃ t, t.status.isTerminal = true
        ∧ (executeJobResume rm f r w).2 = .finished .fulfilled
        ∧ (executeJobResume rm f r w).1.jobStore = storeSet w.jobStore f.job.id t
        ∧ (executeJobResume rm f r w).1.writes = w.writes ++ [(f.job.id, t.status)]) := by
  rcases hph : f.phase with _ | _
  · rcases r with res | msg
    · by_cases hcode : res.code = some 0
      · left
        exact ⟨{ f with phase := .running }, by
          simp [executeJobResume, hph, afterCompile, hcode], rfl, by
          simp [executeJobResume, hph, afterCompile, hcode, World.spawn], by
          simp [executeJobResume, hph, afterCompile, hcode, World.spawn]⟩
      · right
        exact ⟨⟨.COMPLETED, some res.stdout, strOr res.stderr "Compilation failed"⟩, rfl, by
          simp [executeJobResume, hph, afterCompile, hcode], by
          simp [executeJobResume, hph, afterCompile, hcode, World.setRecord], by
          simp [executeJobResume, hph, afterCompile, hcode, World.setRecord]⟩
    · right
      exact ⟨⟨.ERROR, some "", strOr msg "Execution error"⟩, rfl, by
        simp [executeJobResume, hph, afterCompile], by
        simp [executeJobResume, hph, afterCompile, recordFailure, World.setRecord], by
        simp [executeJobResume, hph, afterCompile, recordFailure, World.setRecord]⟩
  · right
    rcases r with res | msg
    · exact ⟨⟨.COMPLETED, some res.stdout, res.stderr⟩, rfl, by
        simp [executeJobResume, hph], by
        simp [executeJobResume, hph, finishRun, World.setRecord], by
        simp [executeJobResume, hph, finishRun, World.setRecord]⟩
    · exact ⟨⟨.ERROR, some "", strOr msg "Execution error"⟩, rfl, by
        simp [executeJobResume, hph], by
        simp [executeJobResume, hph, finishRun, recordFailure, World.setRecord], by
        simp [executeJobResume, hph, finishRun, recordFailure, World.setRecord]⟩

theorem processJobs_move (win32 : Bool) (fs : FsStart) (e : Engine) :
    (processJobs win32 fs e).view = e.view ∨ Move e.view (processJobs win32 fs e).view := by
  unfold processJobs
  cases hb : e.workerRunning with
  | true => left; simp
  | false =>
    cases hq : e.jobQueue with
    | nil => left; simp
    | cons job rest =>
      right
      have hsum := executeJobStart_summary win32 fs.mkdtemp fs.writeFile job e.world
      rcases hres : executeJobStart win32 fs.mkdtemp fs.writeFile job e.world with ⟨w2, pr⟩
      rw [hres] at hsum
      simp only at hsum
      have hvb : e.view.busy = false := hb
      have hvq : e.view.queue = job :: rest := hq
      rcases hsum with ⟨f, hpr, hf, hst, hwr⟩ | ⟨msg, hpr, hst, hwr⟩ | ⟨t, ht, hpr, hst, hwr⟩
      · subst hpr
        have hmove := Move.startSuspend job rest f hvb hvq hf
        convert hmove using 1
        simp [Engine.view, hres, hst, hwr]
      · subst hpr
        have hmove := Move.startFinish job rest
          { status := .ERROR
            output := match storeGet w2.jobStore job.id with
              | some r => r.output
              | none => none
            error := strOr msg "Unknown error" } hvb hvq rfl
        convert hmove using 1
        simp [Engine.view, hres, onSettled, World.setRecord, hst, hwr]
      · subst hpr
        have hmove := Move.startFinish job rest t hvb hvq (by rw [ht]; rfl)
        convert hmove using 1
        simp [Engine.view, hres, onSettled, hst, hwr]

theorem step_moves (win32 : Bool) (e : Engine) (ev : Event) :
    Relation.ReflTransGen Move e.view (step win32 e ev).view := by
  cases ev with
  | submit id language code stdin fs =>
    simp only [step, submit]
    split
    · exact Relation.ReflTransGen.refl
    · simp only [enqueueJob]
      have hsub : Move e.view
          ({ e with
              world := e.world.setRecord id { status := .PENDING, output := some "", error := "" }
              jobQueue := e.jobQueue ++ [⟨id, language, code, strOr stdin ""⟩]
              submitted := e.submitted ++ [⟨id, language, code, strOr stdin ""⟩] } : Engine).view := by
        have hmove := Move.submit (v := e.view) ⟨id, language, code, strOr stdin ""⟩
        convert hmove using 1
      rcases processJobs_move win32 fs
          ({ e with
              world := e.world.setRecord id { status := .PENDING, output := some "", error := "" }
              jobQueue := e.jobQueue ++ [⟨id, language, code, strOr stdin ""⟩]
              submitted := e.submitted ++ [⟨id, language, code, strOr stdin ""⟩] } : Engine)
        with h | h
      · rw [h]
        exact Relation.ReflTransGen.single hsub
      · exact Relation.ReflTransGen.tail (Relation.ReflTransGen.single hsub) h
  | settle k r rm =>
    simp only [step]
    rcases hk : e.inflight[k]? with _ | f
    · exact Relation.ReflTransGen.refl
    · have hsum := executeJobResume_summary rm f r e.world
      rcases hres : executeJobResume rm f r e.world with ⟨w2, pr⟩
      rw [hres] at hsum
      simp only at hsum
      have hvk : e.view.inflight[k]? = some f := hk
      rcases hsum with ⟨f2, hpr, hf, hst, hwr⟩ | ⟨t, ht, hpr, hst, hwr⟩
      · subst hpr
        apply Relation.ReflTransGen.single
        have hmove := Move.resume k f f2 hvk hf
        convert hmove using 1
        simp [Engine.view, hres, hst, hwr]
      · subst hpr
        apply Relation.ReflTransGen.single
        have hmove := Move.finish k f t hvk ht
        convert hmove using 1
        simp [Engine.view, hres, onSettled, hst, hwr]
  | immediate fs =>
    simp only [step]
    split
    · exact Relation.ReflTransGen.refl
    · rcases processJobs_move win32 fs { e with immediates := e.immediates - 1 } with h | h
      · rw [h]
        exact Relation.ReflTransGen.refl
      · exact Relation.ReflTransGen.single h

/-! ## The invariant of the worker loop -/

theorem storeSet_keys (s : JobStore) (id : String) (r : JobRecord) :
    (storeSet s id r).map Prod.fst
      = if id ∈ s.map Prod.fst then s.map Prod.fst else s.map Prod.fst ++ [id] := by
  induction s with
  | nil => simp [storeSet]
  | cons p rest ih =>
    obtain ⟨k, v⟩ := p
    by_cases hk : k = id
    · subst hk
      simp [storeSet]
    · have hk2 : ¬ id = k := fun h => hk h.symm
      by_cases hmem : id ∈ rest.map Prod.fst
      · rw [if_pos hmem] at ih
        have hmem2 : ∃ x, (id, x) ∈ rest := by simpa using hmem
        simp [storeSet, hk, hk2, ih, hmem2]
      · rw [if_neg hmem] at ih
        have hmem2 : ¬ ∃ x, (id, x) ∈ rest := by simpa using hmem
        have hmem3 : ∀ x, (id, x) ∉ rest := fun x hx => hmem2 ⟨x, hx⟩
        simp [storeSet, hk, hk2, ih, hmem3]

theorem storeSet_keys_nodup (s : JobStore) (id : String) (r : JobRecord)
    (h : (s.map Prod.fst).Nodup) : ((storeSet s id r).map Prod.fst).Nodup := by
  rw [storeSet_keys]
  split
  · exact h
  · rename_i hmem
    exact List.Nodup.append h (List.nodup_singleton id) (by
      intro a ha hb
      rw [List.mem_singleton] at hb
      subst hb
      exact hmem ha)

theorem mem_storeSet (s : JobStore) (id : String) (r : JobRecord)
    (hnd : (s.map Prod.fst).Nodup) (k : String) (v : JobRecord)
    (h : (k, v) ∈ storeSet s id r) : (k = id ∧ v = r) ∨ (k ≠ id ∧ (k, v) ∈ s) := by
  induction s with
  | nil =>
    simp [storeSet] at h
    exact Or.inl h
  | cons p rest ih =>
    obtain ⟨k0, v0⟩ := p
    have hnd2 : k0 ∉ rest.map Prod.fst ∧ (rest.map Prod.fst).Nodup := by
      simpa using hnd
    by_cases hk : k0 = id
    · subst hk
      simp only [storeSet, if_true, List.mem_cons] at h
      rcases h with h | h
      · left
        exact ⟨(Prod.mk.inj h).1, (Prod.mk.inj h).2⟩
      · right
        have hkne : k ≠ k0 := by
          intro hkk
          subst hkk
          exact hnd2.1 (List.mem_map.mpr ⟨(k, v), h, rfl⟩)
        exact ⟨hkne, List.mem_cons_of_mem _ h⟩
    · simp only [storeSet, hk, if_false, List.mem_cons] at h
      rcases h with h | h
      · right
        have h1 := (Prod.mk.inj h).1
        have h2 := (Prod.mk.inj h).2
        subst h1
        subst h2
        exact ⟨hk, List.mem_cons_self _ _⟩
      · rcases ih hnd2.2 h with h3 | h3
        · exact Or.inl h3
        · exact Or.inr ⟨h3.1, List.mem_cons_of_mem _ h3.2⟩

theorem inflight_single {l : List Suspended} {k : Nat} {f : Suspended}
    (hlen : l.length ≤ 1) (hk : l[k]? = some f) : l = [f] ∧ k = 0 := by
  match l, k with
  | [], _ => simp at hk
  | [a], 0 =>
    simp at hk
    exact ⟨by rw [hk], rfl⟩
  | [a], k + 1 => simp at hk
  | a :: b :: t, _ => simp at hlen

theorem LoopInv.idle {v : View} (h : LoopInv v) (hb : v.busy = false) : v.inflight = [] := by
  by_contra hne
  have := h.busy hne
  rw [hb] at this
  exact Bool.false_ne_true this

theorem loopInv_move {v v2 : View} (h : LoopInv v) (hm : Move v v2) : LoopInv v2 := by
  cases hm with
  | submit job =>
    refine ⟨storeSet_keys_nodup _ _ _ h.keys, h.atMostOne, h.busy, ?_, ?_, h.begun⟩
    · intro k r hkr hrun
      rcases mem_storeSet _ _ _ h.keys k r hkr with ⟨_, hr⟩ | ⟨_, hold⟩
      · subst hr
        simp at hrun
      · exact h.running k r hold hrun
    · show v.submitted ++ [job] = v.started ++ (v.queue ++ [job])
      rw [h.fifo, List.append_assoc]
  | startSuspend job rest f hb hq hf =>
    have hidle := h.idle hb
    refine ⟨storeSet_keys_nodup _ _ _ h.keys, ?_, fun _ => rfl, ?_, ?_, ?_⟩
    · show (v.inflight ++ [f]).length ≤ 1
      simp [hidle]
    · intro k r hkr hrun
      show k ∈ (v.inflight ++ [f]).map (fun f => f.job.id)
      rcases mem_storeSet _ _ _ h.keys k r hkr with ⟨hk, _⟩ | ⟨_, hold⟩
      · simp [hidle, hk, hf]
      · have := h.running k r hold hrun
        simp [inflightIds, hidle] at this
    · show v.submitted = (v.started ++ [job]) ++ rest
      rw [h.fifo, hq]
      simp
    · intro g hg
      show g.job ∈ v.started ++ [job]
      have hg2 : g ∈ v.inflight ++ [f] := hg
      rw [hidle] at hg2
      simp at hg2
      subst hg2
      simp [hf]
  | startFinish job rest t hb hq ht =>
    have hidle := h.idle hb
    have hnd1 := storeSet_keys_nodup v.store job.id runningRecord h.keys
    refine ⟨storeSet_keys_nodup _ _ _ hnd1, h.atMostOne, ?_, ?_, ?_, ?_⟩
    · intro hne
      exact absurd hidle hne
    · intro k r hkr hrun
      rcases mem_storeSet _ _ _ hnd1 k r hkr with ⟨_, hr⟩ | ⟨hkne, hold⟩
      · subst hr
        rw [hrun] at ht
        simp [Status.isTerminal] at ht
      · rcases mem_storeSet _ _ _ h.keys k r hold with ⟨hk, _⟩ | ⟨_, hold2⟩
        · exact absurd hk hkne
        · exact h.running k r hold2 hrun
    · show v.submitted = (v.started ++ [job]) ++ rest
      rw [h.fifo, hq]
      simp
    · intro g hg
      show g.job ∈ v.started ++ [job]
      exact List.mem_append_left _ (h.begun g hg)
  | resume k f f2 hk hf =>
    obtain ⟨hl, hk0⟩ := inflight_single h.atMostOne hk
    subst hk0
    have hset : v.inflight.set 0 f2 = [f2] := by rw [hl]; rfl
    refine ⟨h.keys, ?_, ?_, ?_, h.fifo, ?_⟩
    · show (v.inflight.set 0 f2).length ≤ 1
      rw [hset]
      simp
    · intro _
      exact h.busy (by rw [hl]; simp)
    · intro k r hkr hrun
      have := h.running k r hkr hrun
      show k ∈ (v.inflight.set 0 f2).map (fun f => f.job.id)
      rw [hset]
      simp [inflightIds, hl] at this
      simp [this, hf]
    · intro g hg
      have hg2 : g ∈ v.inflight.set 0 f2 := hg
      rw [hset] at hg2
      simp at hg2
      subst hg2
      rw [hf]
      exact h.begun f (by rw [hl]; simp)
  | finish k f t hk ht =>
    obtain ⟨hl, hk0⟩ := inflight_single h.atMostOne hk
    subst hk0
    have herase : v.inflight.eraseIdx 0 = [] := by rw [hl]; rfl
    refine ⟨storeSet_keys_nodup _ _ _ h.keys, ?_, ?_, ?_, h.fifo, ?_⟩
    · show (v.inflight.eraseIdx 0).length ≤ 1
      rw [herase]
      simp
    · intro hne
      exact absurd herase hne
    · intro k r hkr hrun
      rcases mem_storeSet _ _ _ h.keys k r hkr with ⟨_, hr⟩ | ⟨hkne, hold⟩
      · subst hr
        rw [hrun] at ht
        simp [Status.isTerminal] at ht
      · have := h.running k r hold hrun
        simp [inflightIds, hl] at this
        exact absurd this hkne
    · intro g hg
      have hg2 : g ∈ v.inflight.eraseIdx 0 := hg
      rw [herase] at hg2
      simp at hg2

theorem loopInv_init : LoopInv Engine.init.view :=
  ⟨List.nodup_nil, Nat.zero_le 1, fun h => absurd rfl h,
    fun _ _ h _ => absurd h (List.not_mem_nil _), rfl,
    fun _ h => absurd h (List.not_mem_nil _)⟩

theorem loopInv_moves {v v2 : View} (h : LoopInv v) (hm : Relation.ReflTransGen Move v v2) :
    LoopInv v2 := by
  induction hm with
  | refl => exact h
  | tail _ hstep ih => exact loopInv_move ih hstep

theorem loopInv_foldl (win32 : Bool) (evs : List Event) (e : Engine) (h : LoopInv e.view) :
    LoopInv (evs.foldl (step win32) e).view := by
  induction evs generalizing e with
  | nil => exact h
  | cons ev rest ih =>
    rw [List.foldl_cons]
    exact ih _ (loopInv_moves h (step_moves win32 e ev))

theorem loopInv_run (win32 : Bool) (evs : List Event) : LoopInv (run win32 evs).view :=
  loopInv_foldl win32 evs Engine.init loopInv_init

theorem runningCount_le_one {v : View} (h : LoopInv v) : runningCount v.store ≤ 1 := by
  unfold runningCount
  have hsub : ∀ k ∈ (v.store.filter (fun p => decide (p.2.status = Status.RUNNING))).map Prod.fst,
      k ∈ inflightIds v := by
    intro k hk
    obtain ⟨⟨k2, r⟩, hmem, hk2⟩ := List.mem_map.mp hk
    simp only at hk2
    subst hk2
    have hm := List.mem_filter.mp hmem
    exact h.running k2 r hm.1 (by simpa using hm.2)
  have hnd : ((v.store.filter (fun p => decide (p.2.status = Status.RUNNING))).map
      Prod.fst).Nodup :=
    List.Nodup.sublist (List.Sublist.map _ (List.filter_sublist _)) h.keys
  have hle := (List.Nodup.subperm hnd hsub).length_le
  have hlen : (inflightIds v).length ≤ 1 := by
    simp only [inflightIds, List.length_map]
    exact h.atMostOne
  simp only [List.length_map] at hle
  omega

/-! ## The invariant of the status log -/

theorem written_snoc_self (ws : List (String × Status)) (id : String) (st : Status) :
    written (ws ++ [(id, st)]) id = written ws id ++ [st] := by
  simp [written, List.filter_append, List.filter_cons]

theorem written_snoc_ne (ws : List (String × Status)) (a id : String) (st : Status)
    (h : a ≠ id) : written (ws ++ [(a, st)]) id = written ws id := by
  simp [written, List.filter_append, List.filter_cons, h]

theorem written_snoc2_self (ws : List (String × Status)) (id : String) (s1 s2 : Status) :
    written (ws ++ [(id, s1), (id, s2)]) id = written ws id ++ [s1, s2] := by
  simp [written, List.filter_append, List.filter_cons]

theorem written_snoc2_ne (ws : List (String × Status)) (a id : String) (s1 s2 : Status)
    (h : a ≠ id) : written (ws ++ [(a, s1), (a, s2)]) id = written ws id := by
  simp [written, List.filter_append, List.filter_cons, h]

theorem LoopInv.inflight_started {v : View} (h : LoopInv v) {id : String}
    (hid : id ∈ inflightIds v) : id ∈ v.started.map Job.id := by
  obtain ⟨f, hf, hfid⟩ := List.mem_map.mp hid
  exact List.mem_map.mpr ⟨f.job, h.begun f hf, hfid⟩

theorem terminal_cases {t : Status} (h : t.isTerminal = true) :
    t = .COMPLETED ∨ t = .ERROR := by
  cases t <;> simp [Status.isTerminal] at h
  · exact Or.inl rfl
  · exact Or.inr rfl

theorem logInv_move {v v2 : View} (hl : LoopInv v) (hlog : LogInv v) (hm : Move v v2)
    (hnd : (v2.submitted.map Job.id).Nodup) : LogInv v2 := by
  cases hm with
  | submit job =>
    have hnd2 : ((v.submitted ++ [job]).map Job.id).Nodup := hnd
    rw [List.map_append, List.nodup_append] at hnd2
    have hnew : job.id ∉ v.submitted.map Job.id := by
      intro hmem
      exact hnd2.2.2 hmem (by simp)
    have hsub : ∀ id, id ∈ v.started.map Job.id → id ≠ job.id := by
      intro id hid heq
      subst heq
      apply hnew
      rw [hl.fifo, List.map_append]
      exact List.mem_append_left _ hid
    refine ⟨?_, ?_, ?_, ?_⟩
    · intro id hid
      have hid2 : id ∉ (v.submitted ++ [job]).map Job.id := hid
      rw [List.map_append, List.mem_append] at hid2
      have hne : job.id ≠ id := fun h => hid2 (Or.inr (by simp [h]))
      show written (v.writes ++ [(job.id, Status.PENDING)]) id = []
      rw [written_snoc_ne _ _ _ _ hne]
      exact hlog.fresh id (fun h => hid2 (Or.inl h))
    · intro id hid
      have hid2 : id ∈ (v.queue ++ [job]).map Job.id := hid
      show written (v.writes ++ [(job.id, Status.PENDING)]) id = [Status.PENDING]
      by_cases heq : job.id = id
      · subst heq
        rw [written_snoc_self, hlog.fresh _ hnew]
        rfl
      · rw [written_snoc_ne _ _ _ _ heq]
        apply hlog.queued
        rw [List.map_append, List.mem_append] at hid2
        rcases hid2 with h | h
        · exact h
        · simp at h
          exact absurd h.symm heq
    · intro id hid
      have hid2 : id ∈ inflightIds v := hid
      show written (v.writes ++ [(job.id, Status.PENDING)]) id = _
      rw [written_snoc_ne _ _ _ _ (fun h => hsub id (hl.inflight_started hid2) h.symm)]
      exact hlog.suspended id hid2
    · intro id hid hnot
      have hid2 : id ∈ v.started.map Job.id := hid
      have hnot2 : id ∉ inflightIds v := hnot
      show written (v.writes ++ [(job.id, Status.PENDING)]) id = _
          ∨ written (v.writes ++ [(job.id, Status.PENDING)]) id = _
      rw [written_snoc_ne _ _ _ _ (fun h => hsub id hid2 h.symm)]
      exact hlog.done id hid2 hnot2
  | startSuspend job rest f hb hq hf =>
    have hidle := hl.idle hb
    have hnd2 : (v.submitted.map Job.id).Nodup := hnd
    rw [hl.fifo, hq, List.map_append, List.map_cons, List.nodup_append] at hnd2
    have hnd3 : job.id ∉ rest.map Job.id ∧ (rest.map Job.id).Nodup := by
      simpa using hnd2.2.1
    have hjs : job.id ∉ v.started.map Job.id := fun h => hnd2.2.2 h (by simp)
    have hjq : job.id ∈ v.queue.map Job.id := by rw [hq]; simp
    have hjsub : job.id ∈ v.submitted.map Job.id := by
      rw [hl.fifo, List.map_append]
      exact List.mem_append_right _ hjq
    refine ⟨?_, ?_, ?_, ?_⟩
    · intro id hid
      have hid2 : id ∉ v.submitted.map Job.id := hid
      have hne : job.id ≠ id := fun h => hid2 (h ▸ hjsub)
      show written (v.writes ++ [(job.id, Status.RUNNING)]) id = []
      rw [written_snoc_ne _ _ _ _ hne]
      exact hlog.fresh id hid2
    · intro id hid
      have hid2 : id ∈ rest.map Job.id := hid
      have hne : job.id ≠ id := fun h => hnd3.1 (h ▸ hid2)
      show written (v.writes ++ [(job.id, Status.RUNNING)]) id = [Status.PENDING]
      rw [written_snoc_ne _ _ _ _ hne]
      apply hlog.queued
      rw [hq]
      simp only [List.map_cons, List.mem_cons]
      exact Or.inr hid2
    · intro id hid
      have hid2 : id ∈ (v.inflight ++ [f]).map (fun f => f.job.id) := hid
      rw [hidle] at hid2
      simp [hf] at hid2
      subst hid2
      show written (v.writes ++ [(job.id, Status.RUNNING)]) job.id = _
      rw [written_snoc_self, hlog.queued _ hjq]
      rfl
    · intro id hid hnot
      have hid2 : id ∈ (v.started ++ [job]).map Job.id := hid
      have hnot2 : id ∉ (v.inflight ++ [f]).map (fun f => f.job.id) := hnot
      rw [hidle] at hnot2
      simp [hf] at hnot2
      rw [List.map_append, List.mem_append] at hid2
      have hid3 : id ∈ v.started.map Job.id := by
        rcases hid2 with h | h
        · exact h
        · simp at h
          exact absurd h hnot2
      show written (v.writes ++ [(job.id, Status.RUNNING)]) id = _
          ∨ written (v.writes ++ [(job.id, Status.RUNNING)]) id = _
      rw [written_snoc_ne _ _ _ _ (fun h => hnot2 h.symm)]
      exact hlog.done id hid3 (by simp [inflightIds, hidle])
  | startFinish job rest t hb hq ht =>
    have hidle := hl.idle hb
    have hnd2 : (v.submitted.map Job.id).Nodup := hnd
    rw [hl.fifo, hq, List.map_append, List.map_cons, List.nodup_append] at hnd2
    have hnd3 : job.id ∉ rest.map Job.id ∧ (rest.map Job.id).Nodup := by
      simpa using hnd2.2.1
    have hjq : job.id ∈ v.queue.map Job.id := by rw [hq]; simp
    have hjsub : job.id ∈ v.submitted.map Job.id := by
      rw [hl.fifo, List.map_append]
      exact List.mem_append_right _ hjq
    refine ⟨?_, ?_, ?_, ?_⟩
    · intro id hid
      have hid2 : id ∉ v.submitted.map Job.id := hid
      have hne : job.id ≠ id := fun h => hid2 (h ▸ hjsub)
      show written (v.writes ++ [(job.id, Status.RUNNING), (job.id, t.status)]) id = []
      rw [written_snoc2_ne _ _ _ _ _ hne]
      exact hlog.fresh id hid2
    · intro id hid
      have hid2 : id ∈ rest.map Job.id := hid
      have hne : job.id ≠ id := fun h => hnd3.1 (h ▸ hid2)
      show written (v.writes ++ [(job.id, Status.RUNNING), (job.id, t.status)]) id
        = [Status.PENDING]
      rw [written_snoc2_ne _ _ _ _ _ hne]
      apply hlog.queued
      rw [hq]
      simp only [List.map_cons, List.mem_cons]
      exact Or.inr hid2
    · intro id hid
      have hid2 : id ∈ inflightIds v := hid
      simp [inflightIds, hidle] at hid2
    · intro id hid _
      have hid2 : id ∈ (v.started ++ [job]).map Job.id := hid
      show written (v.writes ++ [(job.id, Status.RUNNING), (job.id, t.status)]) id = _
          ∨ written (v.writes ++ [(job.id, Status.RUNNING), (job.id, t.status)]) id = _
      by_cases heq : job.id = id
      · subst heq
        rw [written_snoc2_self, hlog.queued _ hjq]
        rcases terminal_cases ht with h | h
        · left; rw [h]; rfl
        · right; rw [h]; rfl
      · rw [written_snoc2_ne _ _ _ _ _ heq]
        rw [List.map_append, List.mem_append] at hid2
        have hid3 : id ∈ v.started.map Job.id := by
          rcases hid2 with h | h
          · exact h
          · simp at h
            exact absurd h.symm heq
        exact hlog.done id hid3 (by simp [inflightIds, hidle])
  | resume k f f2 hk hf =>
    obtain ⟨hlist, hk0⟩ := inflight_single hl.atMostOne hk
    subst hk0
    have hids : inflightIds { v with inflight := v.inflight.set 0 f2 } = inflightIds v := by
      simp [inflightIds, hlist, hf]
    refine ⟨hlog.fresh, hlog.queued, ?_, ?_⟩
    · intro id hid
      rw [hids] at hid
      exact hlog.suspended id hid
    · intro id hid hnot
      rw [hids] at hnot
      exact hlog.done id hid hnot
  | finish k f t hk ht =>
    obtain ⟨hlist, hk0⟩ := inflight_single hl.atMostOne hk
    subst hk0
    have hnd2 : (v.submitted.map Job.id).Nodup := hnd
    rw [hl.fifo, List.map_append, List.nodup_append] at hnd2
    have hfin : f.job.id ∈ inflightIds v := by simp [inflightIds, hlist]
    have hfs : f.job.id ∈ v.started.map Job.id := hl.inflight_started hfin
    have hfsub : f.job.id ∈ v.submitted.map Job.id := by
      rw [hl.fifo, List.map_append]
      exact List.mem_append_left _ hfs
    refine ⟨?_, ?_, ?_, ?_⟩
    · intro id hid
      have hid2 : id ∉ v.submitted.map Job.id := hid
      have hne : f.job.id ≠ id := fun h => hid2 (h ▸ hfsub)
      show written (v.writes ++ [(f.job.id, t.status)]) id = []
      rw [written_snoc_ne _ _ _ _ hne]
      exact hlog.fresh id hid2
    · intro id hid
      have hid2 : id ∈ v.queue.map Job.id := hid
      have hne : f.job.id ≠ id := fun h => hnd2.2.2 hfs (h ▸ hid2)
      show written (v.writes ++ [(f.job.id, t.status)]) id = [Status.PENDING]
      rw [written_snoc_ne _ _ _ _ hne]
      exact hlog.queued id hid2
    · intro id hid
      have hid2 : id ∈ (v.inflight.eraseIdx 0).map (fun f => f.job.id) := hid
      rw [hlist] at hid2
      simp at hid2
    · intro id hid _
      have hid2 : id ∈ v.started.map Job.id := hid
      show written (v.writes ++ [(f.job.id, t.status)]) id = _
          ∨ written (v.writes ++ [(f.job.id, t.status)]) id = _
      by_cases heq : f.job.id = id
      · subst heq
        rw [written_snoc_self, hlog.suspended _ hfin]
        rcases terminal_cases ht with h | h
        · left; rw [h]; rfl
        · right; rw [h]; rfl
      · rw [written_snoc_ne _ _ _ _ heq]
        apply hlog.done id hid2
        simp [inflightIds, hlist]
        exact fun h => heq h.symm

theorem coherent_set (store : JobStore) (ws : List (String × Status)) (id : String)
    (r : JobRecord)
    (h : ∀ i, (storeGet store i).map (fun r => r.status) = (written ws i).getLast?) :
    ∀ i, (storeGet (storeSet store id r) i).map (fun r => r.status)
      = (written (ws ++ [(id, r.status)]) i).getLast? := by
  intro i
  by_cases hi : i = id
  · subst hi
    rw [storeGet_storeSet_self, written_snoc_self, List.getLast?_concat]
    rfl
  · rw [storeGet_storeSet_of_ne _ _ _ _ hi, written_snoc_ne _ _ _ _ (fun h => hi h.symm)]
    exact h i

theorem coherent_move {v v2 : View} (h : Coherent v) (hm : Move v v2) : Coherent v2 := by
  cases hm with
  | submit job => exact coherent_set v.store v.writes job.id _ h
  | startSuspend job rest f hb hq hf => exact coherent_set v.store v.writes job.id runningRecord h
  | startFinish job rest t hb hq ht =>
    have h1 := coherent_set v.store v.writes job.id runningRecord h
    have h2 := coherent_set _ _ job.id t h1
    intro i
    have h3 := h2 i
    rw [List.append_assoc] at h3
    exact h3
  | resume k f f2 hk hf => exact h
  | finish k f t hk ht => exact coherent_set v.store v.writes f.job.id t h

theorem move_extends {v v2 : View} (hm : Move v v2) :
    (∃ l, v2.submitted = v.submitted ++ l) ∧ (∃ l, v2.writes = v.writes ++ l) := by
  cases hm with
  | submit job => exact ⟨⟨[job], rfl⟩, ⟨_, rfl⟩⟩
  | startSuspend job rest f hb hq hf => exact ⟨⟨[], (List.append_nil _).symm⟩, ⟨_, rfl⟩⟩
  | startFinish job rest t hb hq ht => exact ⟨⟨[], (List.append_nil _).symm⟩, ⟨_, rfl⟩⟩
  | resume k f f2 hk hf =>
    exact ⟨⟨[], (List.append_nil _).symm⟩, ⟨[], (List.append_nil _).symm⟩⟩
  | finish k f t hk ht => exact ⟨⟨[], (List.append_nil _).symm⟩, ⟨_, rfl⟩⟩

theorem moves_extend {v v2 : View} (hm : Relation.ReflTransGen Move v v2) :
    (∃ l, v2.submitted = v.submitted ++ l) ∧ (∃ l, v2.writes = v.writes ++ l) := by
  induction hm with
  | refl => exact ⟨⟨[], (List.append_nil _).symm⟩, ⟨[], (List.append_nil _).symm⟩⟩
  | tail _ hstep ih =>
    obtain ⟨⟨l1, h1⟩, ⟨l2, h2⟩⟩ := ih
    obtain ⟨⟨l3, h3⟩, ⟨l4, h4⟩⟩ := move_extends hstep
    exact ⟨⟨l1 ++ l3, by rw [h3, h1, List.append_assoc]⟩,
      ⟨l2 ++ l4, by rw [h4, h2, List.append_assoc]⟩⟩

theorem foldl_moves (win32 : Bool) (evs : List Event) (e : Engine) :
    Relation.ReflTransGen Move e.view (evs.foldl (step win32) e).view := by
  induction evs generalizing e with
  | nil => exact Relation.ReflTransGen.refl
  | cons ev rest ih =>
    rw [List.foldl_cons]
    exact Relation.ReflTransGen.trans (step_moves win32 e ev) (ih _)

theorem logInv_init : LogInv Engine.init.view :=
  ⟨fun _ _ => rfl, fun _ h => absurd h (List.not_mem_nil _),
    fun _ h => absurd h (List.not_mem_nil _), fun _ h => absurd h (List.not_mem_nil _)⟩

theorem logInv_moves {v v2 : View} (hl : LoopInv v) (hlog : LogInv v)
    (hm : Relation.ReflTransGen Move v v2) (hnd : (v2.submitted.map Job.id).Nodup) :
    LogInv v2 := by
  induction hm with
  | refl => exact hlog
  | @tail b c hab hbc ih =>
    obtain ⟨⟨l, hl2⟩, _⟩ := move_extends hbc
    have hndb : (b.submitted.map Job.id).Nodup := by
      rw [hl2, List.map_append] at hnd
      exact (List.nodup_append.mp hnd).1
    exact logInv_move (loopInv_moves hl hab) (ih hndb) hbc hnd

theorem coherent_init : Coherent Engine.init.view := fun _ => rfl

theorem coherent_moves {v v2 : View} (h : Coherent v)
    (hm : Relation.ReflTransGen Move v v2) : Coherent v2 := by
  induction hm with
  | refl => exact h
  | tail _ hstep ih => exact coherent_move ih hstep

theorem written_append (a b : List (String × Status)) (id : String) :
    written (a ++ b) id = written a id ++ written b id := by
  simp [written, List.filter_append]

theorem logInv_shape {v : View} (hl : LoopInv v) (hlog : LogInv v) (id : String) :
    written v.writes id <+: [.PENDING, .RUNNING, .COMPLETED]
      ∨ written v.writes id <+: [.PENDING, .RUNNING, .ERROR] := by
  by_cases hsub : id ∈ v.submitted.map Job.id
  · rw [hl.fifo, List.map_append, List.mem_append] at hsub
    rcases hsub with hs | hq
    · by_cases hin : id ∈ inflightIds v
      · left
        rw [hlog.suspended id hin]
        exact ⟨[.COMPLETED], rfl⟩
      · rcases hlog.done id hs hin with h | h
        · left
          rw [h]
        · right
          rw [h]
    · left
      rw [hlog.queued id hq]
      exact ⟨[.RUNNING, .COMPLETED], rfl⟩
  · left
    rw [hlog.fresh id hsub]
    exact ⟨_, rfl⟩

/-! ## The pipeline: statements on `executeJob` -/

/-- C4: for a job in a supported language whose compile step is absent or
resolves with exit code 0 (the workspace having been created and the source
written, as a run presupposes), when the run promise resolves with any exit
code `c`, stdout `o` and stderr `e`, `executeJob` leaves the record of the job
equal to `{status COMPLETED, output o, error e}` and its promise is fulfilled;
`c` is arbitrary, so the status does not depend on it. -/
theorem executeJob_run_result_completed (env : Env) (job : Job) (w : World) (p : Profile)
    (d : String) (c : Option Int) (o e : String)
    (hp : languageProfile env.win32 job.language = some p)
    (hmk : env.mkdtemp = .ok d) (hwr : env.writeFile = .ok ())
    (hc : p.compileCmd = none ∨ ∃ co ce, env.compile = .resolved ⟨some 0, co, ce⟩)
    (hr : env.run = .resolved ⟨c, o, e⟩) :
    storeGet (executeJob env job w).1.jobStore job.id
        = some { status := .COMPLETED, output := some o, error := e }
      ∧ (executeJob env job w).2 = .fulfilled :=
  executeJob_run_resolved env job w p d ⟨c, o, e⟩ hp hmk hwr hc hr

/-- Witness of C4: the Python job whose run is ended by the timer. -/
theorem executeJob_run_result_completed_witness :
    storeGet (executeJob sampleEnv pythonJob World.empty).1.jobStore pythonJob.id
        = some { status := .COMPLETED, output := some "2\n"
                 error := "\n[Error] Time limit exceeded." }
      ∧ (executeJob sampleEnv pythonJob World.empty).2 = .fulfilled :=
  executeJob_run_result_completed sampleEnv pythonJob World.empty
    ⟨"main.py", none, [], "python", ["main.py"]⟩ "/tmp/iicpc-job-a1B2c3" none "2\n"
    "\n[Error] Time limit exceeded." (by decide) rfl rfl (Or.inl rfl) rfl

/-- C5: for a job in a compiled language (cpp, java), when the compile promise
resolves with an exit code other than 0 (an absent code included), stdout `o`
and stderr `e`, `executeJob` leaves the record `{status COMPLETED, output o,
error e}` when `e` is not empty and `{status COMPLETED, output o, error
'Compilation failed'}` when it is; the only `runCommand` invocation it makes is
the compile command, which differs from the run command. -/
theorem executeJob_compile_failure (env : Env) (job : Job) (w : World) (d : String)
    (c : Option Int) (o e : String)
    (hl : job.language = "cpp" ∨ job.language = "java")
    (hmk : env.mkdtemp = .ok d) (hwr : env.writeFile = .ok ())
    (hcmp : env.compile = .resolved ⟨c, o, e⟩) (hc : c ≠ some 0) :
    storeGet (executeJob env job w).1.jobStore job.id
        = some { status := .COMPLETED, output := some o
                 error := if e = "" then "Compilation failed" else e }
      ∧ ∃ p cmd, languageProfile env.win32 job.language = some p ∧ p.compileCmd = some cmd
          ∧ (executeJob env job w).1.spawned = w.spawned ++ [compileCall cmd p d]
          ∧ cmd ≠ p.runCmd := by
  rcases hl with hl | hl
  · refine ⟨?_, _, "g++", by simp [languageProfile, hl]; rfl, rfl, ?_, ?_⟩
    · simp [executeJob, executeJobStart, languageProfile, hl, hmk, hwr, hcmp, hc, afterCompile,
        World.setRecord, World.spawn, storeGet_storeSet_self, strOr]
    · simp [executeJob, executeJobStart, languageProfile, hl, hmk, hwr, hcmp, hc, afterCompile,
        World.setRecord, World.spawn]
    · cases env.win32 <;> decide
  · refine ⟨?_, _, "javac", by simp [languageProfile, hl]; rfl, rfl, ?_, ?_⟩
    · simp [executeJob, executeJobStart, languageProfile, hl, hmk, hwr, hcmp, hc, afterCompile,
        World.setRecord, World.spawn, storeGet_storeSet_self, strOr]
    · simp [executeJob, executeJobStart, languageProfile, hl, hmk, hwr, hcmp, hc, afterCompile,
        World.setRecord, World.spawn]
    · decide

/-- Witness of C5: the C++ job whose compiler exits with code 1. -/
theorem executeJob_compile_failure_witness :
    storeGet (executeJob sampleEnv cppJob World.empty).1.jobStore cppJob.id
        = some { status := .COMPLETED, output := some ""
                 error := if "main.cpp:1:10: error: expected identifier" = ""
                   then "Compilation failed" else "main.cpp:1:10: error: expected identifier" }
      ∧ ∃ p cmd, languageProfile sampleEnv.win32 cppJob.language = some p
          ∧ p.compileCmd = some cmd
          ∧ (executeJob sampleEnv cppJob World.empty).1.spawned
              = World.empty.spawned ++ [compileCall cmd p "/tmp/iicpc-job-a1B2c3"]
          ∧ cmd ≠ p.runCmd :=
  executeJob_compile_failure sampleEnv cppJob World.empty "/tmp/iicpc-job-a1B2c3" (some 1) ""
    "main.cpp:1:10: error: expected identifier" (Or.inl rfl) rfl rfl rfl (by decide)

/-- C8, as stated, fails: when `fs.mkdtempSync` (line 101, before the `switch`)
throws, `executeJob` for a `ruby` job ends by rejecting with the record still
`RUNNING`, and the record `processJobs` then writes carries the filesystem
message, not `Unsupported language`. -/
theorem executeJob_unsupported_language_counterexample :
    rubyJob.language ≠ "cpp" ∧ rubyJob.language ≠ "python" ∧ rubyJob.language ≠ "java"
      ∧ storeGet (executeJob fullDiskEnv rubyJob World.empty).1.jobStore rubyJob.id
          = some { status := .RUNNING, output := some "", error := "" }
      ∧ (executeJob fullDiskEnv rubyJob World.empty).2
          = .rejected "ENOSPC: no space left on device, mkdtemp"
      ∧ storeGet (run false [.submit "job-rb" "ruby" "puts 1" ""
            ⟨.throws "ENOSPC: no space left on device, mkdtemp", .ok ()⟩]).world.jobStore "job-rb"
          = some { status := .ERROR, output := some ""
                   error := "ENOSPC: no space left on device, mkdtemp" } := by
  decide

/-- C8, amended: for a language identifier other than `cpp`, `python` and
`java`, `executeJob` never invokes `runCommand`, and when creating the
workspace directory succeeds it ends fulfilled with the record exactly
`{status ERROR, output '', error 'Unsupported language'}`. -/
theorem executeJob_unsupported_language (env : Env) (job : Job) (w : World)
    (h1 : job.language ≠ "cpp") (h2 : job.language ≠ "python") (h3 : job.language ≠ "java") :
    (executeJob env job w).1.spawned = w.spawned
      ∧ ∀ d, env.mkdtemp = .ok d →
          storeGet (executeJob env job w).1.jobStore job.id
              = some { status := .ERROR, output := some "", error := "Unsupported language" }
            ∧ (executeJob env job w).2 = .fulfilled := by
  have hp : languageProfile env.win32 job.language = none := by
    simp [languageProfile, h1, h2, h3]
  constructor
  · rcases hmk : env.mkdtemp with d | msg
    · simp [executeJob, executeJobStart, hp, hmk, World.setRecord]
    · simp [executeJob, executeJobStart, hmk, World.setRecord]
  · intro d hmk
    simp [executeJob, executeJobStart, hp, hmk, World.setRecord, storeGet_storeSet_self]

/-- Witness of the amended C8: the `ruby` job in an environment where the
workspace is created. -/
theorem executeJob_unsupported_language_witness :
    (executeJob sampleEnv rubyJob World.empty).1.spawned = World.empty.spawned
      ∧ ∀ d, sampleEnv.mkdtemp = .ok d →
          storeGet (executeJob sampleEnv rubyJob World.empty).1.jobStore rubyJob.id
              = some { status := .ERROR, output := some "", error := "Unsupported language" }
            ∧ (executeJob sampleEnv rubyJob World.empty).2 = .fulfilled :=
  executeJob_unsupported_language sampleEnv rubyJob World.empty (by decide) (by decide)
    (by decide)

/-- C7: the claim asks that every workspace directory `executeJob` creates be
removed before it finishes, whatever the language. The code misses this for an
unsupported language: with every filesystem call succeeding, the `ruby` job
ends fulfilled with the directory made at line 101 still present and
`fs.rmSync` never called, because the `default` branch returns before the
`try` whose `finally` block does the removal. The Python job in the same
environment reaches that block: one `fs.rmSync` call, no directory left. -/
theorem executeJob_unsupported_leaks_workspace :
    (executeJob sampleEnv rubyJob World.empty).2 = .fulfilled
      ∧ World.empty.dirs = []
      ∧ (executeJob sampleEnv rubyJob World.empty).1.dirs = ["/tmp/iicpc-job-a1B2c3"]
      ∧ (executeJob sampleEnv rubyJob World.empty).1.removals = []
      ∧ (executeJob sampleEnv pythonJob World.empty).1.dirs = []
      ∧ (executeJob sampleEnv pythonJob World.empty).1.removals = ["/tmp/iicpc-job-a1B2c3"] := by
  decide

/-- The paths of `executeJob` that enter the `try` block: for a job in a
supported language whose source file is written, whatever the compile and run
promises settle with and whatever `fs.rmSync` does, `executeJob` calls
`fs.rmSync` exactly once, on the directory it created, before its promise
settles; when that call succeeds, the workspace
directories afterwards are those that existed before. -/
theorem executeJob_releases_workspace (env : Env) (job : Job) (w : World) (p : Profile)
    (d : String)
    (hp : languageProfile env.win32 job.language = some p)
    (hmk : env.mkdtemp = .ok d) (hwr : env.writeFile = .ok ()) :
    (executeJob env job w).1.removals = w.removals ++ [d]
      ∧ (env.rm = .ok () → d ∉ w.dirs → (executeJob env job w).1.dirs = w.dirs) := by
  obtain ⟨wb, hrem, hdirs, hform⟩ := executeJob_release_form env job w p d hp hmk hwr
  have hself : ({ env with rm := env.rm } : Env) = env := by cases env; rfl
  have hrun := hform env.rm
  rw [hself] at hrun
  refine ⟨?_, ?_⟩
  · rw [hrun]
    simp [hrem]
  · intro hrm hd
    rw [hrun, hrm]
    show List.filter (fun x => decide (x ≠ d)) wb.dirs = w.dirs
    rw [hdirs]
    exact filter_ne_append_self w.dirs d hd

/-- An instance of the preceding theorem: the C++ job whose compilation
fails. -/
theorem executeJob_releases_workspace_witness :
    (executeJob sampleEnv cppJob World.empty).1.removals
        = World.empty.removals ++ ["/tmp/iicpc-job-a1B2c3"]
      ∧ (sampleEnv.rm = .ok () → "/tmp/iicpc-job-a1B2c3" ∉ World.empty.dirs →
          (executeJob sampleEnv cppJob World.empty).1.dirs = World.empty.dirs) :=
  executeJob_releases_workspace sampleEnv cppJob World.empty
    ⟨"main.cpp", some "g++", ["main.cpp", "-O2", "-std=c++17", "-o", "main"], "./main", []⟩
    "/tmp/iicpc-job-a1B2c3" (by decide) rfl rfl

/-- C10: for a job whose source file has been written, whatever the compile
and run promises settle with (resolution or rejection), `executeJob` reaches
the removal step, and for either behaviour `rm` of `fs.rmSync` the call is the
removal step applied to one and the same world `wb`: the removal is invoked
once, the job store after it is the job store before it (no status, output or
error changes, and no `jobStore.set` is logged), and the promise of
`executeJob` is fulfilled, not rejected. -/
theorem executeJob_cleanup_keeps_record (env : Env) (job : Job) (w : World) (p : Profile)
    (d : String)
    (hp : languageProfile env.win32 job.language = some p)
    (hmk : env.mkdtemp = .ok d) (hwr : env.writeFile = .ok ()) :
    ∃ wb : World, wb.removals = w.removals ∧
      ∀ rm : Outcome Unit,
        executeJob { env with rm := rm } job w = (releaseWorkspace rm d wb, .fulfilled)
          ∧ (executeJob { env with rm := rm } job w).1.jobStore = wb.jobStore
          ∧ (executeJob { env with rm := rm } job w).1.writes = wb.writes
          ∧ (executeJob { env with rm := rm } job w).1.removals = wb.removals ++ [d]
          ∧ (executeJob { env with rm := rm } job w).2 = .fulfilled := by
  obtain ⟨wb, hrem, _, hform⟩ := executeJob_release_form env job w p d hp hmk hwr
  refine ⟨wb, hrem, fun rm => ?_⟩
  rw [hform rm]
  simp

/-- Witness of C10: the Python job, with a removal that succeeds and one
that throws. -/
theorem executeJob_cleanup_keeps_record_witness :
    ∃ wb : World, wb.removals = World.empty.removals ∧
      ∀ rm : Outcome Unit,
        executeJob { sampleEnv with rm := rm } pythonJob World.empty
            = (releaseWorkspace rm "/tmp/iicpc-job-a1B2c3" wb, .fulfilled)
          ∧ (executeJob { sampleEnv with rm := rm } pythonJob World.empty).1.jobStore
              = wb.jobStore
          ∧ (executeJob { sampleEnv with rm := rm } pythonJob World.empty).1.writes = wb.writes
          ∧ (executeJob { sampleEnv with rm := rm } pythonJob World.empty).1.removals
              = wb.removals ++ ["/tmp/iicpc-job-a1B2c3"]
          ∧ (executeJob { sampleEnv with rm := rm } pythonJob World.empty).2 = .fulfilled :=
  executeJob_cleanup_keeps_record sampleEnv pythonJob World.empty
    ⟨"main.py", none, [], "python", ["main.py"]⟩ "/tmp/iicpc-job-a1B2c3" (by decide) rfl rfl

/-! ## The process runner: statements on `runCommand` -/

/-- C9, as stated, fails: for the non-empty texts made of a newline, or of
blanks and a tab, `runCommand` ends the input stream without writing. -/
theorem runCommand_stdin_counterexample :
    ("\n" : String) ≠ "" ∧ (runCommand "\n" []).stdinOps = [StdinOp.close]
      ∧ ("  \t" : String) ≠ "" ∧ (runCommand "  \t" []).stdinOps = [StdinOp.close] := by
  decide

/-- C9, amended: at every moment of a `runCommand` call, the calls made on the
input stream of the child are: one write of `s` (untrimmed) followed by the
close, when `s` has a character that `trim` does not strip; the close alone,
with no write, exactly when `s` is empty or made only of whitespace and line
terminators. -/
theorem runCommand_stdin_ops (s : String) (evs : List ChildEvent) :
    (runCommand s evs).stdinOps
      = if allWhitespace s then [StdinOp.close] else [StdinOp.write s, StdinOp.close] := by
  unfold runCommand
  rw [foldl_runCommandStep_stdinOps]
  simp only [runCommandInit, stdinGuard_eq]
  cases allWhitespace s <;> rfl

/-- C6, as stated, fails: the timer fires (the marker is appended, the child
is killed, the promise is still pending), the child then emits `error`, and
the call is rejected although `close` follows; the job ends with status
`ERROR`. -/
theorem runCommand_timeout_counterexample :
    (runCommand "" [.timer]).kills = 1
      ∧ (runCommand "" [.timer]).stderr = "\n[Error] Time limit exceeded."
      ∧ (runCommand "" [.timer]).settled = none
      ∧ (runCommand "" [.timer, .error "kill EPERM", .close none]).settled
          = some (.rejected "kill EPERM")
      ∧ storeGet (executeJob { sampleEnv with run := .rejected "kill EPERM" } pythonJob
            World.empty).1.jobStore pythonJob.id
          = some { status := .ERROR, output := some "", error := "kill EPERM" } := by
  decide

/-- C6, amended: in every execution of `runCommand` in which the timer event
comes before the `close` event and the child emits no `error` event before
that `close`, the promise is resolved at `close` (and stays so whatever
follows) with the exit code and the stdout and stderr accumulated until then,
and that stderr contains the marker `[Error] Time limit exceeded.`; a job whose
run promise resolves this way ends with status `COMPLETED` and that stderr as
its error text. -/
theorem runCommand_timeout_resolves (stdin : String) (pre mid post : List ChildEvent)
    (c : Option Int)
    (hpre : ∀ ev ∈ pre, ev.isFinal = false) (hmid : ∀ ev ∈ mid, ev.isFinal = false) :
    (runCommand stdin (pre ++ .timer :: mid ++ .close c :: post)).settled
        = some (.resolved ⟨c, (runCommand stdin (pre ++ .timer :: mid)).stdout,
            (runCommand stdin (pre ++ .timer :: mid)).stderr⟩)
      ∧ timeLimitMarker.data <:+: (runCommand stdin (pre ++ .timer :: mid)).stderr.data
      ∧ ∀ (env : Env) (job : Job) (w : World) (p : Profile) (d : String),
          languageProfile env.win32 job.language = some p →
          env.mkdtemp = .ok d → env.writeFile = .ok () →
          (p.compileCmd = none ∨ ∃ co ce, env.compile = .resolved ⟨some 0, co, ce⟩) →
          env.run = .resolved ⟨c, (runCommand stdin (pre ++ .timer :: mid)).stdout,
            (runCommand stdin (pre ++ .timer :: mid)).stderr⟩ →
          storeGet (executeJob env job w).1.jobStore job.id
            = some { status := .COMPLETED
                     output := some (runCommand stdin (pre ++ .timer :: mid)).stdout
                     error := (runCommand stdin (pre ++ .timer :: mid)).stderr } := by
  have hnf : ∀ ev ∈ pre ++ .timer :: mid, ev.isFinal = false := by
    intro ev hev
    rcases List.mem_append.mp hev with h | h
    · exact hpre ev h
    · rcases List.mem_cons.mp h with h | h
      · subst h
        rfl
      · exact hmid ev h
  have hunsettled : (runCommand stdin (pre ++ .timer :: mid)).settled = none := by
    unfold runCommand
    rw [foldl_settled_of_not_final _ _ hnf]
    rfl
  refine ⟨?_, ?_, ?_⟩
  · rw [runCommand_append, List.foldl_cons]
    apply foldl_settled_stays
    simp [runCommandStep, settleWith, hunsettled]
  · rw [runCommand_append, List.foldl_cons]
    apply foldl_marker
    apply runCommandStep_timer_marker
    unfold runCommand
    exact foldl_pending_or_marker pre _ hpre (Or.inl rfl)
  · intro env job w p d hp hmk hwr hc hr
    exact (executeJob_run_resolved env job w p d _ hp hmk hwr hc hr).1

/-- Witness of the amended C6: output, then the timer, then the close event
without an exit code, then a late chunk. -/
theorem runCommand_timeout_resolves_witness :
    (runCommand "" ([.stdoutData "2\n"] ++ .timer :: [] ++ .close none :: [.stderrData "x"])).settled
        = some (.resolved ⟨none, (runCommand "" ([.stdoutData "2\n"] ++ .timer :: [])).stdout,
            (runCommand "" ([.stdoutData "2\n"] ++ .timer :: [])).stderr⟩)
      ∧ timeLimitMarker.data <:+: (runCommand "" ([.stdoutData "2\n"] ++ .timer :: [])).stderr.data
      ∧ ∀ (env : Env) (job : Job) (w : World) (p : Profile) (d : String),
          languageProfile env.win32 job.language = some p →
          env.mkdtemp = .ok d → env.writeFile = .ok () →
          (p.compileCmd = none ∨ ∃ co ce, env.compile = .resolved ⟨some 0, co, ce⟩) →
          env.run = .resolved ⟨none, (runCommand "" ([.stdoutData "2\n"] ++ .timer :: [])).stdout,
            (runCommand "" ([.stdoutData "2\n"] ++ .timer :: [])).stderr⟩ →
          storeGet (executeJob env job w).1.jobStore job.id
            = some { status := .COMPLETED
                     output := some (runCommand "" ([.stdoutData "2\n"] ++ .timer :: [])).stdout
                     error := (runCommand "" ([.stdoutData "2\n"] ++ .timer :: [])).stderr } :=
  runCommand_timeout_resolves "" [.stdoutData "2\n"] [] [.stderrData "x"] none
    (by decide) (by decide)

/-! ## The queue and the worker loop: statements on the engine -/

/-- C1: in every state reached from the initial engine state by any sequence
of submissions, settlements of awaited `runCommand` promises and scheduled
`processJobs` callbacks, at most one job record has status `RUNNING` and at
most one `executeJob` call is in flight; while a call is in flight
`workerRunning` is set. The job identifiers need not even be distinct. -/
theorem at_most_one_running (win32 : Bool) (evs : List Event) :
    runningCount (run win32 evs).world.jobStore ≤ 1
      ∧ (run win32 evs).inflight.length ≤ 1
      ∧ ((run win32 evs).inflight = [] ∨ (run win32 evs).workerRunning = true) :=
  ⟨runningCount_le_one (loopInv_run win32 evs), (loopInv_run win32 evs).atMostOne,
    (em ((run win32 evs).inflight = [])).imp_right (loopInv_run win32 evs).busy⟩

/-- C2: after every sequence of events, the jobs submitted, in submission
order, are the jobs handed to `executeJob`, in the order they started, followed
by the current contents of `jobQueue`; so the started jobs are an initial
segment of the submitted ones, and no job is dropped, duplicated or started
before an earlier one. -/
theorem fifo_start_order (win32 : Bool) (evs : List Event) :
    (run win32 evs).submitted = (run win32 evs).started ++ (run win32 evs).jobQueue
      ∧ (run win32 evs).started <+: (run win32 evs).submitted :=
  ⟨(loopInv_run win32 evs).fifo, ⟨(run win32 evs).jobQueue, (loopInv_run win32 evs).fifo.symm⟩⟩

/-- C3: take any sequence of events `evs` followed by any further events
`more`, such that the identifiers of the submitted jobs are distinct. For every
job id, the statuses written to its record up to the end are a prefix of
`PENDING, RUNNING, COMPLETED` or of `PENDING, RUNNING, ERROR`; the statuses
written after `evs` extend those written before (nothing is rewritten, so a
record that is `COMPLETED` or `ERROR` keeps its status and never returns to
`PENDING` or `RUNNING`); and the status in the job store is the status written
last. The filesystem and process outcomes carried by the events are
arbitrary. -/
theorem status_sequence (win32 : Bool) (evs more : List Event) (id : String)
    (hnd : ((run win32 (evs ++ more)).submitted.map Job.id).Nodup) :
    statusesWritten (run win32 evs).world id
        <+: statusesWritten (run win32 (evs ++ more)).world id
      ∧ (statusesWritten (run win32 (evs ++ more)).world id
            <+: [.PENDING, .RUNNING, .COMPLETED]
          ∨ statusesWritten (run win32 (evs ++ more)).world id
            <+: [.PENDING, .RUNNING, .ERROR])
      ∧ (storeGet (run win32 (evs ++ more)).world.jobStore id).map (fun r => r.status)
          = (statusesWritten (run win32 (evs ++ more)).world id).getLast? := by
  have hall := foldl_moves win32 (evs ++ more) Engine.init
  have hlog : LogInv (run win32 (evs ++ more)).view :=
    logInv_moves loopInv_init logInv_init hall hnd
  have hcoh : Coherent (run win32 (evs ++ more)).view :=
    coherent_moves coherent_init hall
  refine ⟨?_, logInv_shape (loopInv_run win32 (evs ++ more)) hlog id, hcoh id⟩
  have hsplit : run win32 (evs ++ more) = more.foldl (step win32) (run win32 evs) := by
    simp [run, List.foldl_append]
  obtain ⟨_, ⟨l, hl⟩⟩ := moves_extend (foldl_moves win32 more (run win32 evs))
  rw [← hsplit] at hl
  have hw : (run win32 (evs ++ more)).world.writes = (run win32 evs).world.writes ++ l := hl
  unfold statusesWritten
  rw [hw, written_append]
  exact ⟨_, rfl⟩

/-- Witness of C3: two jobs with distinct ids, the first followed to its
end. -/
theorem status_sequence_witness :
    statusesWritten (run false sampleEvents).world "job-1"
        <+: statusesWritten (run false (sampleEvents ++ sampleMore)).world "job-1"
      ∧ (statusesWritten (run false (sampleEvents ++ sampleMore)).world "job-1"
            <+: [.PENDING, .RUNNING, .COMPLETED]
          ∨ statusesWritten (run false (sampleEvents ++ sampleMore)).world "job-1"
            <+: [.PENDING, .RUNNING, .ERROR])
      ∧ (storeGet (run false (sampleEvents ++ sampleMore)).world.jobStore "job-1").map
            (fun r => r.status)
          = (statusesWritten (run false (sampleEvents ++ sampleMore)).world "job-1").getLast? :=
  status_sequence false sampleEvents sampleMore "job-1" (by decide)

end ECode
